import Mathlib

/-!
Verification of the map-coloring backtracking service (`src/back/server.py`).

The Python module is shallowly embedded below:
* Python `Dict[str, int]` (the live color assignment) is an association
  list `List (String × Int)` with at most one entry per key; mutation
  (`colors[u] = c`, `del colors[u]`) becomes the pure updates `dictSet`
  and `dictDel`, threaded through the recursion.
* Python `Dict[str, List[str]]` (the adjacency structure) is
  `List (String × List String)`, preserving insertion order of keys,
  which models the insertion-ordered Python dict.
* The mutable `steps` list that the recursion appends to is rendered by
  each call returning the sub-trace it appends, concatenated in the
  order the Python appends happen (the stitched result is the final
  value of the mutable list).
* Python ints are `Int`; `range(k)` for an `Int` argument is
  `(List.range k.toNat).map Int.ofNat` (empty when `k ≤ 0`, exactly as
  `range(k)` is for non-positive `k`).
* `sorted(..., key=..., reverse=True)` is a stable descending sort; the
  output of a stable sort is uniquely determined by the key, so it is
  modelled with `List.insertionSort` under the relation
  `fun a b => degree b ≤ degree a`, which is a stable sort placing
  larger degrees first and preserving input order on ties.
-/

/-- `Edge` model from the source (`class Edge(BaseModel)`). -/
structure Edge where
  src : String
  dst : String
deriving DecidableEq, Repr

/-- `Step` model from the source. The Python field `partial` (a keyword in
Lean) is called `snapshot` here; in the source it is `Optional` but every
construction site supplies a copied dict, so it is total here. -/
structure Step where
  action : String
  node : String
  color : Option Int
  snapshot : List (String × Int)
deriving DecidableEq, Repr

/-- `SolveRequest` model from the source. -/
structure SolveRequest where
  nodes : List String
  edges : List Edge
  k_colors : Int
  order : Option String
deriving DecidableEq, Repr

/-- `SolveResponse` model from the source. -/
structure SolveResponse where
  ok : Bool
  colors : List (String × Int)
  steps : List Step
  message : String
deriving DecidableEq, Repr

/-- Python dict lookup `d.get(u)` on the association-list model. -/
def dictGet (d : List (String × Int)) (u : String) : Option Int :=
  match d with
  | [] => none
  | p :: t => if p.1 = u then some p.2 else dictGet t u

/-- Python `d.get(u, dflt)`. -/
def dictGetD (d : List (String × Int)) (u : String) (dflt : Int) : Int :=
  (dictGet d u).getD dflt

/-- Python dict assignment `d[u] = c`: updates in place when the key is
present (keeping its position), appends at the end otherwise. -/
def dictSet (d : List (String × Int)) (u : String) (c : Int) : List (String × Int) :=
  match d with
  | [] => [(u, c)]
  | p :: t => if p.1 = u then (u, c) :: t else p :: dictSet t u c

/-- Python `del d[u]`: removes the entry with key `u`. -/
def dictDel (d : List (String × Int)) (u : String) : List (String × Int) :=
  match d with
  | [] => []
  | p :: t => if p.1 = u then t else p :: dictDel t u

/-- Key membership `u in adj` for the adjacency dict. -/
def adjHas (adj : List (String × List String)) (u : String) : Bool :=
  adj.any (fun p => p.1 = u)

/-- Python `adj[u]` (only ever used with `u` a key; defaults to `[]`). -/
def adjGet (adj : List (String × List String)) (u : String) : List String :=
  match adj with
  | [] => []
  | p :: t => if p.1 = u then p.2 else adjGet t u

/-- One conditional append `if b not in adj[a]: adj[a].append(b)`. -/
def adjAdd (adj : List (String × List String)) (a b : String) :
    List (String × List String) :=
  adj.map (fun p => if p.1 = a then (if b ∈ p.2 then p else (p.1, p.2 ++ [b])) else p)

/-- `build_adj` from the source: `{u: [] for u in nodes}` followed by the
edge loop that inserts each admissible edge in both directions. -/
def build_adj (nodes : List String) (edges : List Edge) :
    List (String × List String) :=
  let init := nodes.foldl
    (fun a u =>
      if a.any (fun p => p.1 = u) then
        a.map (fun p => if p.1 = u then (u, ([] : List String)) else p)
      else a ++ [(u, [])])
    []
  edges.foldl
    (fun a e =>
      if adjHas a e.src && adjHas a e.dst && !(e.src == e.dst) then
        adjAdd (adjAdd a e.src e.dst) e.dst e.src
      else a)
    init

/-- `len(adj[u])`, the degree used by the ordering heuristic. -/
def degree (adj : List (String × List String)) (u : String) : Nat :=
  (adjGet adj u).length

/-- `order_nodes` from the source: `sorted(adj.keys(), key=deg, reverse=True)`
(a stable descending sort) for `"degree"`, `list(adj.keys())` otherwise. -/
def order_nodes (adj : List (String × List String)) (ord : String) : List String :=
  if ord = "degree" then
    List.insertionSort (fun a b => degree adj b ≤ degree adj a) (adj.map Prod.fst)
  else adj.map Prod.fst

/-- `compatible` from the source: no neighbor of `u` currently holds `color`
(`colors.get(v, -1) == color`). -/
def compatible (u : String) (color : Int) (colors : List (String × Int))
    (adj : List (String × List String)) : Bool :=
  (adjGet adj u).all (fun v => !(dictGetD colors v (-1) == color))

/-- The color loop `for c in range(k)` of `backtrack`, with the remaining
candidate colors as explicit argument and the recursive call
`backtrack(i + 1)` as the continuation `recur` (a function of the live
assignment, since that is the only mutable state it reads). Returns the
Python return value, the final state of the mutable `colors` dict, and the
sub-trace this call appends to the mutable `steps` list. -/
def btColors (adj : List (String × List String)) (u : String) (cs : List Int)
    (colors : List (String × Int))
    (recur : List (String × Int) → Bool × List (String × Int) × List Step) :
    Bool × List (String × Int) × List Step :=
  match cs with
  | [] => (false, colors, [])
  | c :: cs' =>
    if compatible u c colors adj then
      let colors1 := dictSet colors u c
      let r := recur colors1
      if r.1 then
        (true, r.2.1, ⟨"try", u, some c, colors⟩ :: ⟨"assign", u, some c, colors1⟩ :: r.2.2)
      else
        let r2 := btColors adj u cs' (dictDel r.2.1 u) recur
        (r2.1, r2.2.1,
          ⟨"try", u, some c, colors⟩ :: ⟨"assign", u, some c, colors1⟩ ::
            (r.2.2 ++ ⟨"backtrack", u, some c, r.2.1⟩ :: r2.2.2))
    else
      let r2 := btColors adj u cs' colors recur
      (r2.1, r2.2.1, ⟨"try", u, some c, colors⟩ :: ⟨"conflict", u, some c, colors⟩ :: r2.2.2)

/-- The recursion `backtrack(i)` of `color_graph_backtracking`, with the
suffix `nodes[i:]` as explicit argument. -/
def btNodes (adj : List (String × List String)) (k : Int) :
    List String → List (String × Int) → Bool × List (String × Int) × List Step
  | [], colors => (true, colors, [⟨"done", "", none, colors⟩])
  | u :: rest, colors =>
    btColors adj u ((List.range k.toNat).map Int.ofNat) colors
      (fun colors1 => btNodes adj k rest colors1)

/-- `color_graph_backtracking` from the source: run the search over the
ordered vertices from the empty assignment; on failure the returned
assignment is `{}`. -/
def color_graph_backtracking (adj : List (String × List String)) (k : Int)
    (ord : String) : Bool × List (String × Int) × List Step :=
  let nodes := order_nodes adj ord
  let r := btNodes adj k nodes []
  (r.1, if r.1 then r.2.1 else [], r.2.2)

/-- Python `req.order or "degree"`: `None` and the empty string are falsy. -/
def effectiveOrder (o : Option String) : String :=
  match o with
  | none => "degree"
  | some s => if s = "" then "degree" else s

/-- The `/solve` endpoint from the source: range check on `k_colors`,
non-empty check on `nodes`, then the backtracking engine. -/
def solve (req : SolveRequest) : SolveResponse :=
  if !(2 ≤ req.k_colors && req.k_colors ≤ 5) then
    ⟨false, [], [], "k_colors debe estar entre 2 y 5."⟩
  else if req.nodes = [] then
    ⟨false, [], [], "Debes enviar nodos."⟩
  else
    let adj := build_adj req.nodes req.edges
    let r := color_graph_backtracking adj req.k_colors (effectiveOrder req.order)
    ⟨r.1, r.2.1, r.2.2, if r.1 then "Solución encontrada." else "No existe coloreo con k colores."⟩

/-! ### Basic dictionary lemmas -/

theorem dictGet_dictSet_self (d : List (String × Int)) (u : String) (c : Int) :
    dictGet (dictSet d u c) u = some c := by
  induction d with
  | nil => simp [dictSet, dictGet]
  | cons p t ih =>
    by_cases h : p.1 = u <;> simp [dictSet, dictGet, h, ih]

theorem dictGet_dictSet_ne (d : List (String × Int)) (u : String) (c : Int)
    (x : String) (h : x ≠ u) : dictGet (dictSet d u c) x = dictGet d x := by
  induction d with
  | nil => simp [dictSet, dictGet, Ne.symm h]
  | cons p t ih =>
    by_cases hp : p.1 = u
    · subst hp
      simp [dictSet, dictGet, Ne.symm h]
    · simp [dictSet, dictGet, hp, ih]

theorem dictDel_dictSet (d : List (String × Int)) (u : String) (c : Int)
    (h : dictGet d u = none) : dictDel (dictSet d u c) u = d := by
  induction d with
  | nil => simp [dictSet, dictDel]
  | cons p t ih =>
    by_cases hp : p.1 = u
    · simp [dictGet, hp] at h
    · simp [dictGet, hp] at h
      simp [dictSet, dictDel, hp, ih h]

/-! ### C5: input-policy violations are rejected before the search -/

/-- C5: for every request whose `k_colors` is outside 2..5 or whose vertex
list is empty, `solve` returns a structured failure: `ok = false`, empty
assignment, empty trace, and one of the two validation messages; no search
is run and no fault is raised (the function is total). -/
theorem solve_rejects_invalid_requests (req : SolveRequest)
    (h : ¬(2 ≤ req.k_colors ∧ req.k_colors ≤ 5) ∨ req.nodes = []) :
    (solve req).ok = false ∧ (solve req).colors = [] ∧ (solve req).steps = [] ∧
      ((solve req).message = "k_colors debe estar entre 2 y 5." ∨
        (solve req).message = "Debes enviar nodos.") := by
  by_cases hk : 2 ≤ req.k_colors ∧ req.k_colors ≤ 5
  · have hn : req.nodes = [] := h.resolve_left (by simp [hk])
    simp [solve, hk.1, hk.2, hn]
  · rw [Classical.not_and_iff_or_not_not] at hk
    rcases hk with hk | hk <;> simp [solve, hk]

/-- Witness for C5 at the concrete request of §8 scenario 5 (`k = 0`). -/
theorem solve_rejects_invalid_requests_witness :
    (¬(2 ≤ (0 : Int) ∧ (0 : Int) ≤ 5) ∨ (["A"] : List String) = []) ∧
      ((solve ⟨["A"], [], 0, none⟩).ok = false ∧
        (solve ⟨["A"], [], 0, none⟩).colors = [] ∧
        (solve ⟨["A"], [], 0, none⟩).steps = [] ∧
        ((solve ⟨["A"], [], 0, none⟩).message = "k_colors debe estar entre 2 y 5." ∨
          (solve ⟨["A"], [], 0, none⟩).message = "Debes enviar nodos.")) :=
  ⟨by decide, solve_rejects_invalid_requests ⟨["A"], [], 0, none⟩ (by decide)⟩

/-! ### C8: ordering fallback and default -/

/-- C8: any `order` string other than `"degree"` (e.g. `"foo"`) silently
falls back to natural input order (the adjacency dict's key order), and a
missing or empty `order` value defaults to `"degree"` (Python
`req.order or "degree"`). -/
theorem order_fallback_and_default :
    (∀ (adj : List (String × List String)) (s : String), s ≠ "degree" →
        order_nodes adj s = adj.map Prod.fst) ∧
      effectiveOrder none = "degree" ∧ effectiveOrder (some "") = "degree" := by
  refine ⟨fun adj s hs => ?_, rfl, rfl⟩
  simp [order_nodes, hs]

/-- Witness for C8 at the unrecognized strategy name `"foo"`. -/
theorem order_fallback_and_default_witness :
    ("foo" ≠ "degree") ∧
      order_nodes [("A", ["B"]), ("B", ["A"])] "foo" = ["A", "B"] :=
  ⟨by decide,
    (order_fallback_and_default.1 [("A", ["B"]), ("B", ["A"])] "foo" (by decide)).trans
      (by decide)⟩

/-! ### C6: the degree ordering strategy -/

theorem filter_orderedInsert_deg_eq (adj : List (String × List String)) (d : Nat)
    (a : String) (L : List String) (ha : degree adj a = d) :
    (List.orderedInsert (fun x y => degree adj y ≤ degree adj x) a L).filter
        (fun u => degree adj u == d) =
      a :: L.filter (fun u => degree adj u == d) := by
  induction L with
  | nil => simp [List.orderedInsert, ha]
  | cons b t ih =>
    by_cases hr : degree adj b ≤ degree adj a
    · have hr2 : degree adj b ≤ d := ha ▸ hr
      simp [List.orderedInsert, hr, hr2, ha]
    · have hb : ¬(degree adj b = d) := by omega
      have hr2 : ¬(degree adj b ≤ d) := ha ▸ hr
      simp [List.orderedInsert, hr, hr2, hb, ih, ha]

theorem filter_orderedInsert_deg_ne (adj : List (String × List String)) (d : Nat)
    (a : String) (L : List String) (ha : ¬(degree adj a = d)) :
    (List.orderedInsert (fun x y => degree adj y ≤ degree adj x) a L).filter
        (fun u => degree adj u == d) =
      L.filter (fun u => degree adj u == d) := by
  induction L with
  | nil => simp [List.orderedInsert, ha]
  | cons b t ih =>
    by_cases hr : degree adj b ≤ degree adj a
    · simp [List.orderedInsert, hr, ha]
    · simp [List.orderedInsert, hr, List.filter_cons, ih]

theorem filter_insertionSort_deg (adj : List (String × List String)) (d : Nat)
    (l : List String) :
    (List.insertionSort (fun x y => degree adj y ≤ degree adj x) l).filter
        (fun u => degree adj u == d) =
      l.filter (fun u => degree adj u == d) := by
  induction l with
  | nil => rfl
  | cons a t ih =>
    by_cases ha : degree adj a = d
    · simp only [List.insertionSort, filter_orderedInsert_deg_eq adj d a _ ha, ih]
      simp [ha]
    · simp only [List.insertionSort, filter_orderedInsert_deg_ne adj d a _ ha, ih]
      simp [ha]

theorem insertionSort_of_all_rel {α : Type} (r : α → α → Prop) [DecidableRel r]
    (l : List α) (h : ∀ a ∈ l, ∀ b ∈ l, r a b) : List.insertionSort r l = l := by
  induction l with
  | nil => rfl
  | cons a t ih =>
    rw [List.insertionSort_cons r (fun b hb => h a (by simp) b (by simp [hb])),
      ih (fun x hx y hy => h x (by simp [hx]) y (by simp [hy]))]

/-- C6: the `degree` strategy returns a permutation of the vertex set,
sorted by neighbor-count descending; the sort is stable (each class of
equal-degree vertices appears in its original key order, stated as a
filter identity); in particular, when all vertices have equal degree the
result is exactly the natural key order. -/
theorem order_nodes_degree_spec (adj : List (String × List String)) :
    (order_nodes adj "degree").Perm (adj.map Prod.fst) ∧
      List.Sorted (fun a b => degree adj b ≤ degree adj a) (order_nodes adj "degree") ∧
      (∀ d : Nat, (order_nodes adj "degree").filter (fun u => degree adj u == d) =
        (adj.map Prod.fst).filter (fun u => degree adj u == d)) ∧
      ((∀ u ∈ adj.map Prod.fst, ∀ v ∈ adj.map Prod.fst, degree adj u = degree adj v) →
        order_nodes adj "degree" = adj.map Prod.fst) := by
  haveI : IsTotal String (fun a b => degree adj b ≤ degree adj a) :=
    ⟨fun a b => le_total (degree adj b) (degree adj a)⟩
  haveI : IsTrans String (fun a b => degree adj b ≤ degree adj a) :=
    ⟨fun _ _ _ h1 h2 => le_trans h2 h1⟩
  refine ⟨?_, ?_, ?_, ?_⟩
  · simpa [order_nodes] using
      List.perm_insertionSort (fun a b => degree adj b ≤ degree adj a) (adj.map Prod.fst)
  · simpa [order_nodes] using
      List.sorted_insertionSort (fun a b => degree adj b ≤ degree adj a) (adj.map Prod.fst)
  · intro d
    simpa [order_nodes] using filter_insertionSort_deg adj d (adj.map Prod.fst)
  · intro h
    simpa [order_nodes] using
      insertionSort_of_all_rel (fun a b => degree adj b ≤ degree adj a) (adj.map Prod.fst)
        (fun a ha b hb => le_of_eq (h b hb a ha))

/-- Witness for C6 on a 4-cycle (all degrees equal): the `degree` strategy
returns the vertices in natural input order. -/
theorem order_nodes_degree_spec_witness :
    (∀ u ∈ ([("A", ["B", "D"]), ("B", ["A", "C"]), ("C", ["B", "D"]),
        ("D", ["C", "A"])] : List (String × List String)).map Prod.fst,
      ∀ v ∈ ([("A", ["B", "D"]), ("B", ["A", "C"]), ("C", ["B", "D"]),
        ("D", ["C", "A"])] : List (String × List String)).map Prod.fst,
        degree [("A", ["B", "D"]), ("B", ["A", "C"]), ("C", ["B", "D"]),
          ("D", ["C", "A"])] u =
          degree [("A", ["B", "D"]), ("B", ["A", "C"]), ("C", ["B", "D"]),
            ("D", ["C", "A"])] v) ∧
      order_nodes [("A", ["B", "D"]), ("B", ["A", "C"]), ("C", ["B", "D"]),
          ("D", ["C", "A"])] "degree" =
        ([("A", ["B", "D"]), ("B", ["A", "C"]), ("C", ["B", "D"]),
          ("D", ["C", "A"])] : List (String × List String)).map Prod.fst :=
  ⟨by decide,
    (order_nodes_degree_spec [("A", ["B", "D"]), ("B", ["A", "C"]), ("C", ["B", "D"]),
        ("D", ["C", "A"])]).2.2.2 (by decide)⟩

/-! ### Adjacency-construction lemmas -/

/-- The per-vertex step of the dict comprehension `{u: [] for u in nodes}`. -/
def initStep (a : List (String × List String)) (u : String) :
    List (String × List String) :=
  if a.any (fun p => p.1 = u) then
    a.map (fun p => if p.1 = u then (u, ([] : List String)) else p)
  else a ++ [(u, [])]

/-- The initial adjacency dict `{u: [] for u in nodes}`. -/
def initAdj (nodes : List String) : List (String × List String) :=
  nodes.foldl initStep []

/-- The per-edge step of the edge loop in `build_adj`. -/
def addEdgeStep (a : List (String × List String)) (e : Edge) :
    List (String × List String) :=
  if adjHas a e.src && adjHas a e.dst && !(e.src == e.dst) then
    adjAdd (adjAdd a e.src e.dst) e.dst e.src
  else a

theorem build_adj_eq (nodes : List String) (edges : List Edge) :
    build_adj nodes edges = edges.foldl addEdgeStep (initAdj nodes) := rfl

theorem adjHas_iff (a : List (String × List String)) (u : String) :
    adjHas a u = true ↔ u ∈ a.map Prod.fst := by
  simp [adjHas, List.any_eq_true, List.mem_map]

theorem map_fst_adjAdd (a : List (String × List String)) (x y : String) :
    (adjAdd a x y).map Prod.fst = a.map Prod.fst := by
  simp only [adjAdd, List.map_map]
  apply List.map_congr_left
  intro p _
  by_cases h1 : p.1 = x <;> by_cases h2 : y ∈ p.2 <;> simp [h1, h2]

theorem adjHas_adjAdd (a : List (String × List String)) (x y z : String) :
    adjHas (adjAdd a x y) z = adjHas a z := by
  by_cases h : adjHas a z = true
  · rw [h, adjHas_iff, map_fst_adjAdd, ← adjHas_iff]; exact h
  · simp only [Bool.not_eq_true] at h
    rw [h]
    rw [Bool.eq_false_iff]
    intro hc
    rw [adjHas_iff, map_fst_adjAdd, ← adjHas_iff] at hc
    simp [hc] at h

theorem adjHas_cons_false (p : String × List String)
    (t : List (String × List String)) (u : String)
    (h : adjHas (p :: t) u = false) : ¬(p.1 = u) ∧ adjHas t u = false := by
  simp only [adjHas, List.any_cons, Bool.or_eq_false_iff,
    decide_eq_false_iff_not] at h
  exact ⟨h.1, h.2⟩

theorem adjGet_nil_of_not_has (a : List (String × List String)) (u : String)
    (h : adjHas a u = false) : adjGet a u = [] := by
  induction a with
  | nil => rfl
  | cons p t ih =>
    obtain ⟨h1, h2⟩ := adjHas_cons_false p t u h
    simp only [adjGet, if_neg h1]
    exact ih h2

theorem mem_adjGet_has (a : List (String × List String)) (u v : String)
    (h : v ∈ adjGet a u) : adjHas a u = true := by
  induction a with
  | nil => simp [adjGet] at h
  | cons p t ih =>
    by_cases hp : p.1 = u
    · simp [adjHas, List.any_cons, hp]
    · simp only [adjGet, if_neg hp] at h
      have ht := ih h
      simp only [adjHas, List.any_cons] at ht ⊢
      rw [ht, Bool.or_true]

theorem adjAdd_fst (p : String × List String) (x y : String) :
    (if p.1 = x then (if y ∈ p.2 then p else (p.1, p.2 ++ [y])) else p).1 = p.1 := by
  by_cases h1 : p.1 = x <;> by_cases h2 : y ∈ p.2 <;> simp [h1, h2]

theorem adjGet_adjAdd_ne (a : List (String × List String)) (x y u : String)
    (h : u ≠ x) : adjGet (adjAdd a x y) u = adjGet a u := by
  induction a with
  | nil => rfl
  | cons p t ih =>
    by_cases hp : p.1 = u
    · have hpx : ¬(p.1 = x) := by rw [hp]; exact h
      simp only [adjAdd, List.map_cons, if_neg hpx, adjGet, if_pos hp]
    · simp only [adjAdd, List.map_cons, adjGet, adjAdd_fst, if_neg hp]
      simp only [adjAdd] at ih
      exact ih

theorem adjAdd_not_has (a : List (String × List String)) (x y : String)
    (h : adjHas a x = false) : adjAdd a x y = a := by
  induction a with
  | nil => rfl
  | cons p t ih =>
    obtain ⟨h1, h2⟩ := adjHas_cons_false p t x h
    have ht := ih h2
    simp only [adjAdd, List.map_cons, if_neg h1]
    simp only [adjAdd] at ht
    rw [ht]

theorem adjGet_adjAdd_self (a : List (String × List String)) (x y : String)
    (hx : adjHas a x = true) :
    adjGet (adjAdd a x y) x =
      if y ∈ adjGet a x then adjGet a x else adjGet a x ++ [y] := by
  induction a with
  | nil => simp [adjHas] at hx
  | cons p t ih =>
    by_cases hp : p.1 = x
    · by_cases hy : y ∈ p.2 <;> simp [adjAdd, adjGet, hp, hy]
    · simp only [adjHas, List.any_cons] at hx
      simp only [hp, decide_eq_true_eq, false_or] at hx
      simpa [adjAdd, adjGet, hp] using ih hx

theorem mem_adjGet_adjAdd_self (a : List (String × List String)) (x y : String)
    (hx : adjHas a x = true) : y ∈ adjGet (adjAdd a x y) x := by
  rw [adjGet_adjAdd_self a x y hx]
  by_cases hy : y ∈ adjGet a x <;> simp [hy]

theorem mem_adjGet_adjAdd_mono (a : List (String × List String)) (x y u v : String)
    (h : v ∈ adjGet a u) : v ∈ adjGet (adjAdd a x y) u := by
  by_cases hu : u = x
  · subst hu
    rw [adjGet_adjAdd_self a u y (mem_adjGet_has a u v h)]
    by_cases hy : y ∈ adjGet a u <;> simp [hy, h]
  · rwa [adjGet_adjAdd_ne a x y u hu]

theorem mem_adjGet_adjAdd_cases (a : List (String × List String)) (x y u v : String)
    (h : v ∈ adjGet (adjAdd a x y) u) : v ∈ adjGet a u ∨ (u = x ∧ v = y) := by
  by_cases hu : u = x
  · subst hu
    by_cases hx : adjHas a u = true
    · rw [adjGet_adjAdd_self a u y hx] at h
      by_cases hy : y ∈ adjGet a u
      · simp [hy] at h; exact Or.inl h
      · simp [hy] at h
        rcases h with h | h
        · exact Or.inl h
        · exact Or.inr ⟨rfl, h⟩
    · simp only [Bool.not_eq_true] at hx
      rw [adjAdd_not_has a u y hx] at h
      exact Or.inl h
  · rw [adjGet_adjAdd_ne a x y u hu] at h
    exact Or.inl h

/-! ### Keys of the adjacency dict -/

theorem map_fst_initStep (a : List (String × List String)) (v : String) :
    (initStep a v).map Prod.fst =
      if v ∈ a.map Prod.fst then a.map Prod.fst else a.map Prod.fst ++ [v] := by
  by_cases h : v ∈ a.map Prod.fst
  · have ha : a.any (fun p => p.1 = v) = true := by
      rw [show (fun (p : String × List String) => decide (p.1 = v)) =
        (fun p => decide (p.1 = v)) from rfl]
      exact (adjHas_iff a v).mpr h
    simp only [initStep, ha, if_true, if_pos h, List.map_map]
    apply List.map_congr_left
    intro p _
    by_cases h1 : p.1 = v <;> simp [h1]
  · have ha : a.any (fun p => p.1 = v) = false := by
      rw [Bool.eq_false_iff]
      intro hc
      exact h ((adjHas_iff a v).mp hc)
    simp [initStep, ha, if_neg h]

theorem foldl_initStep_keys (l : List String) :
    ∀ a : List (String × List String), ((a.map Prod.fst).Nodup) →
      (((l.foldl initStep a).map Prod.fst).Nodup ∧
        ∀ u, u ∈ (l.foldl initStep a).map Prod.fst ↔ u ∈ a.map Prod.fst ∨ u ∈ l) := by
  induction l with
  | nil => intro a h; exact ⟨h, fun u => by simp⟩
  | cons v t ih =>
    intro a h
    have hk := map_fst_initStep a v
    by_cases hv : v ∈ a.map Prod.fst
    · rw [if_pos hv] at hk
      have := ih (initStep a v) (hk ▸ h)
      refine ⟨this.1, fun u => ?_⟩
      rw [List.foldl_cons, (this.2 u), hk]
      constructor
      · rintro (hu | hu)
        · exact Or.inl hu
        · exact Or.inr (by simp [hu])
      · rintro (hu | hu)
        · exact Or.inl hu
        · rcases List.mem_cons.mp hu with rfl | hu
          · exact Or.inl hv
          · exact Or.inr hu
    · rw [if_neg hv] at hk
      have hnd : ((initStep a v).map Prod.fst).Nodup := by
        rw [hk, ← List.concat_eq_append]
        exact List.Nodup.concat hv h
      have := ih (initStep a v) hnd
      refine ⟨this.1, fun u => ?_⟩
      rw [List.foldl_cons, (this.2 u), hk]
      simp only [List.mem_append, List.mem_singleton, List.mem_cons]
      tauto

theorem initAdj_keys_nodup (nodes : List String) :
    ((initAdj nodes).map Prod.fst).Nodup :=
  (foldl_initStep_keys nodes [] (by simp)).1

theorem mem_initAdj_keys (nodes : List String) (u : String) :
    u ∈ (initAdj nodes).map Prod.fst ↔ u ∈ nodes := by
  rw [initAdj, (foldl_initStep_keys nodes [] (by simp)).2 u]
  simp

theorem map_fst_addEdgeStep (a : List (String × List String)) (e : Edge) :
    (addEdgeStep a e).map Prod.fst = a.map Prod.fst := by
  unfold addEdgeStep
  split
  · rw [map_fst_adjAdd, map_fst_adjAdd]
  · rfl

theorem map_fst_foldl_addEdgeStep (es : List Edge) :
    ∀ a : List (String × List String),
      (es.foldl addEdgeStep a).map Prod.fst = a.map Prod.fst := by
  induction es with
  | nil => intro a; rfl
  | cons e t ih => intro a; rw [List.foldl_cons, ih, map_fst_addEdgeStep]

theorem map_fst_build_adj (nodes : List String) (edges : List Edge) :
    (build_adj nodes edges).map Prod.fst = (initAdj nodes).map Prod.fst := by
  rw [build_adj_eq, map_fst_foldl_addEdgeStep]

theorem build_adj_keys_nodup (nodes : List String) (edges : List Edge) :
    ((build_adj nodes edges).map Prod.fst).Nodup := by
  rw [map_fst_build_adj]; exact initAdj_keys_nodup nodes

theorem mem_build_adj_keys (nodes : List String) (edges : List Edge) (u : String) :
    u ∈ (build_adj nodes edges).map Prod.fst ↔ u ∈ nodes := by
  rw [map_fst_build_adj]; exact mem_initAdj_keys nodes u

/-! ### Structural invariants of the built adjacency -/

/-- The adjacency relation is symmetric. -/
def symmAdj (a : List (String × List String)) : Prop :=
  ∀ u v, v ∈ adjGet a u → u ∈ adjGet a v

/-- No vertex appears in its own neighbor list. -/
def irreflAdj (a : List (String × List String)) : Prop :=
  ∀ u, u ∉ adjGet a u

/-- Every listed neighbor is itself a key of the dict. -/
def closedAdj (a : List (String × List String)) : Prop :=
  ∀ u v, v ∈ adjGet a u → adjHas a v = true

/-- Each neighbor list has no duplicates. -/
def nodupNbrs (a : List (String × List String)) : Prop :=
  ∀ u, (adjGet a u).Nodup

theorem addEdgeStep_guard (a : List (String × List String)) (e : Edge)
    (hg : (adjHas a e.src && adjHas a e.dst && !(e.src == e.dst)) = true) :
    adjHas a e.src = true ∧ adjHas a e.dst = true ∧ e.src ≠ e.dst := by
  simp only [Bool.and_eq_true, Bool.not_eq_true', beq_eq_false_iff_ne] at hg
  exact ⟨hg.1.1, hg.1.2, hg.2⟩

theorem mem_adjGet_addEdgeStep_mono (a : List (String × List String)) (e : Edge)
    (u v : String) (h : v ∈ adjGet a u) : v ∈ adjGet (addEdgeStep a e) u := by
  unfold addEdgeStep
  split
  · exact mem_adjGet_adjAdd_mono _ _ _ _ _ (mem_adjGet_adjAdd_mono _ _ _ _ _ h)
  · exact h

theorem adjHas_addEdgeStep (a : List (String × List String)) (e : Edge)
    (z : String) : adjHas (addEdgeStep a e) z = adjHas a z := by
  unfold addEdgeStep
  split
  · rw [adjHas_adjAdd, adjHas_adjAdd]
  · rfl

theorem mem_adjGet_addEdgeStep_cases (a : List (String × List String)) (e : Edge)
    (u v : String) (h : v ∈ adjGet (addEdgeStep a e) u) :
    v ∈ adjGet a u ∨ ((u = e.src ∧ v = e.dst) ∨ (u = e.dst ∧ v = e.src)) := by
  unfold addEdgeStep at h
  split at h
  · rcases mem_adjGet_adjAdd_cases _ _ _ _ _ h with h2 | h2
    · rcases mem_adjGet_adjAdd_cases _ _ _ _ _ h2 with h3 | h3
      · exact Or.inl h3
      · exact Or.inr (Or.inl h3)
    · exact Or.inr (Or.inr h2)
  · exact Or.inl h

theorem symmAdj_addEdgeStep (a : List (String × List String)) (e : Edge)
    (h : symmAdj a) : symmAdj (addEdgeStep a e) := by
  by_cases hg : (adjHas a e.src && adjHas a e.dst && !(e.src == e.dst)) = true
  · obtain ⟨hs, hd, _⟩ := addEdgeStep_guard a e hg
    have hstep : addEdgeStep a e = adjAdd (adjAdd a e.src e.dst) e.dst e.src := by
      unfold addEdgeStep; rw [if_pos hg]
    rw [hstep]
    intro u v hv
    rcases mem_adjGet_adjAdd_cases _ _ _ _ _ hv with h2 | h2
    · rcases mem_adjGet_adjAdd_cases _ _ _ _ _ h2 with h3 | h3
      · exact mem_adjGet_adjAdd_mono _ _ _ _ _
          (mem_adjGet_adjAdd_mono _ _ _ _ _ (h u v h3))
      · obtain ⟨rfl, rfl⟩ := h3
        exact mem_adjGet_adjAdd_self _ _ _ (by rw [adjHas_adjAdd]; exact hd)
    · obtain ⟨rfl, rfl⟩ := h2
      exact mem_adjGet_adjAdd_mono _ _ _ _ _ (mem_adjGet_adjAdd_self _ _ _ hs)
  · have hstep : addEdgeStep a e = a := by unfold addEdgeStep; rw [if_neg hg]
    rw [hstep]; exact h

theorem irreflAdj_addEdgeStep (a : List (String × List String)) (e : Edge)
    (h : irreflAdj a) : irreflAdj (addEdgeStep a e) := by
  intro u hu
  rcases mem_adjGet_addEdgeStep_cases a e u u hu with hb | hn
  · exact h u hb
  · unfold addEdgeStep at hu
    split at hu
    case isTrue hg =>
      obtain ⟨_, _, hne⟩ := addEdgeStep_guard a e hg
      rcases hn with ⟨rfl, h2⟩ | ⟨rfl, h2⟩
      · exact hne h2
      · exact hne h2.symm
    case isFalse => exact h u hu

theorem closedAdj_addEdgeStep (a : List (String × List String)) (e : Edge)
    (h : closedAdj a) : closedAdj (addEdgeStep a e) := by
  intro u v hv
  rw [adjHas_addEdgeStep]
  rcases mem_adjGet_addEdgeStep_cases a e u v hv with hb | hn
  · exact h u v hb
  · unfold addEdgeStep at hv
    split at hv
    case isTrue hg =>
      obtain ⟨hs, hd, _⟩ := addEdgeStep_guard a e hg
      rcases hn with ⟨rfl, rfl⟩ | ⟨rfl, rfl⟩
      · exact hd
      · exact hs
    case isFalse => exact h u v hv

theorem nodupNbrs_adjAdd (a : List (String × List String)) (x y : String)
    (h : nodupNbrs a) : nodupNbrs (adjAdd a x y) := by
  intro u
  by_cases hu : u = x
  · subst hu
    by_cases hx : adjHas a u = true
    · rw [adjGet_adjAdd_self a u y hx]
      by_cases hy : y ∈ adjGet a u
      · simpa [hy] using h u
      · rw [if_neg hy, ← List.concat_eq_append]
        exact List.Nodup.concat hy (h u)
    · simp only [Bool.not_eq_true] at hx
      rw [adjAdd_not_has a u y hx]
      exact h u
  · rw [adjGet_adjAdd_ne a x y u hu]
    exact h u

theorem nodupNbrs_addEdgeStep (a : List (String × List String)) (e : Edge)
    (h : nodupNbrs a) : nodupNbrs (addEdgeStep a e) := by
  unfold addEdgeStep
  split
  · exact nodupNbrs_adjAdd _ _ _ (nodupNbrs_adjAdd _ _ _ h)
  · exact h

theorem adjGet_of_all_nil (a : List (String × List String))
    (h : ∀ p ∈ a, p.2 = ([] : List String)) (u : String) : adjGet a u = [] := by
  induction a with
  | nil => rfl
  | cons p t ih =>
    by_cases hp : p.1 = u
    · simp [adjGet, hp, h p (by simp)]
    · simp only [adjGet, if_neg hp]
      exact ih (fun q hq => h q (by simp [hq]))

theorem adjGet_initAdj (nodes : List String) (u : String) :
    adjGet (initAdj nodes) u = [] := by
  have key : ∀ (l : List String) (a : List (String × List String)),
      (∀ p ∈ a, p.2 = ([] : List String)) → ∀ p ∈ l.foldl initStep a, p.2 = [] := by
    intro l
    induction l with
    | nil => intro a h; exact h
    | cons v t ih =>
      intro a h
      apply ih
      intro p hp
      unfold initStep at hp
      split at hp
      · rcases List.mem_map.mp hp with ⟨q, hq, rfl⟩
        by_cases h1 : q.1 = v <;> simp [h1, h q hq]
      · rcases List.mem_append.mp hp with hq | hq
        · exact h p hq
        · simp at hq; simp [hq]
  exact adjGet_of_all_nil _ (key nodes [] (by intro p hp; simp at hp)) u

theorem build_adj_invariants (nodes : List String) (edges : List Edge) :
    symmAdj (build_adj nodes edges) ∧ irreflAdj (build_adj nodes edges) ∧
      closedAdj (build_adj nodes edges) ∧ nodupNbrs (build_adj nodes edges) := by
  rw [build_adj_eq]
  have key : ∀ (es : List Edge) (a : List (String × List String)),
      symmAdj a ∧ irreflAdj a ∧ closedAdj a ∧ nodupNbrs a →
      symmAdj (es.foldl addEdgeStep a) ∧ irreflAdj (es.foldl addEdgeStep a) ∧
        closedAdj (es.foldl addEdgeStep a) ∧ nodupNbrs (es.foldl addEdgeStep a) := by
    intro es
    induction es with
    | nil => intro a h; exact h
    | cons e t ih =>
      intro a h
      exact ih (addEdgeStep a e)
        ⟨symmAdj_addEdgeStep a e h.1, irreflAdj_addEdgeStep a e h.2.1,
          closedAdj_addEdgeStep a e h.2.2.1, nodupNbrs_addEdgeStep a e h.2.2.2⟩
  apply key
  refine ⟨?_, ?_, ?_, ?_⟩
  · intro u v hv; rw [adjGet_initAdj] at hv; simp at hv
  · intro u hv; rw [adjGet_initAdj] at hv; simp at hv
  · intro u v hv; rw [adjGet_initAdj] at hv; simp at hv
  · intro u; rw [adjGet_initAdj]; exact List.nodup_nil

theorem build_adj_symm (nodes : List String) (edges : List Edge) :
    symmAdj (build_adj nodes edges) := (build_adj_invariants nodes edges).1

theorem build_adj_irrefl (nodes : List String) (edges : List Edge) :
    irreflAdj (build_adj nodes edges) := (build_adj_invariants nodes edges).2.1

theorem build_adj_closed (nodes : List String) (edges : List Edge) :
    closedAdj (build_adj nodes edges) := (build_adj_invariants nodes edges).2.2.1

theorem build_adj_nodupNbrs (nodes : List String) (edges : List Edge) :
    nodupNbrs (build_adj nodes edges) := (build_adj_invariants nodes edges).2.2.2

/-! ### Idempotence of edge insertion -/

/-- An edge is already accounted for in the dict: either the guard filters
it out (missing endpoint or self-loop), or both directions are recorded. -/
def edgeSeen (a : List (String × List String)) (e : Edge) : Prop :=
  (adjHas a e.src = false ∨ adjHas a e.dst = false ∨ e.src = e.dst) ∨
    (e.dst ∈ adjGet a e.src ∧ e.src ∈ adjGet a e.dst)

theorem edgeSeen_addEdgeStep_self (a : List (String × List String)) (e : Edge) :
    edgeSeen (addEdgeStep a e) e := by
  by_cases hg : (adjHas a e.src && adjHas a e.dst && !(e.src == e.dst)) = true
  · obtain ⟨hs, hd, hne⟩ := addEdgeStep_guard a e hg
    have hstep : addEdgeStep a e = adjAdd (adjAdd a e.src e.dst) e.dst e.src := by
      unfold addEdgeStep; rw [if_pos hg]
    rw [hstep]
    refine Or.inr ⟨?_, ?_⟩
    · rw [adjGet_adjAdd_ne _ _ _ _ hne]
      exact mem_adjGet_adjAdd_self _ _ _ hs
    · exact mem_adjGet_adjAdd_self _ _ _ (by rw [adjHas_adjAdd]; exact hd)
  · have hstep : addEdgeStep a e = a := by unfold addEdgeStep; rw [if_neg hg]
    rw [hstep]
    left
    by_cases h1 : adjHas a e.src = true
    · by_cases h2 : adjHas a e.dst = true
      · right; right
        by_contra hne
        exact hg (by simp [h1, h2, hne])
      · right; left; exact Bool.eq_false_iff.mpr h2
    · left; exact Bool.eq_false_iff.mpr h1

theorem edgeSeen_addEdgeStep_mono (a : List (String × List String)) (e f : Edge)
    (h : edgeSeen a e) : edgeSeen (addEdgeStep a f) e := by
  rcases h with h | h
  · left; rwa [adjHas_addEdgeStep, adjHas_addEdgeStep]
  · right
    exact ⟨mem_adjGet_addEdgeStep_mono _ _ _ _ h.1,
      mem_adjGet_addEdgeStep_mono _ _ _ _ h.2⟩

theorem edgeSeen_foldl (es : List Edge) :
    ∀ (a : List (String × List String)) (e : Edge), edgeSeen a e →
      edgeSeen (es.foldl addEdgeStep a) e := by
  induction es with
  | nil => intro a e h; exact h
  | cons f t ih =>
    intro a e h
    exact ih (addEdgeStep a f) e (edgeSeen_addEdgeStep_mono a e f h)

theorem edgeSeen_rev (a : List (String × List String)) (e : Edge)
    (h : edgeSeen a e) : edgeSeen a ⟨e.dst, e.src⟩ := by
  rcases h with (h | h | h) | h
  · left; right; left; exact h
  · left; left; exact h
  · left; right; right; exact h.symm
  · right; exact ⟨h.2, h.1⟩

theorem adjAdd_of_mem (a : List (String × List String)) (x y : String)
    (hk : (a.map Prod.fst).Nodup) (h : y ∈ adjGet a x) : adjAdd a x y = a := by
  induction a with
  | nil => rfl
  | cons p t ih =>
    rw [List.map_cons, List.nodup_cons] at hk
    by_cases hp : p.1 = x
    · simp only [adjGet, if_pos hp] at h
      have ht : adjAdd t x y = t := by
        apply adjAdd_not_has
        rw [Bool.eq_false_iff]
        intro hc
        exact hk.1 (hp ▸ (adjHas_iff t x).mp hc)
      simp only [adjAdd, List.map_cons, if_pos hp, if_pos h]
      simp only [adjAdd] at ht
      rw [ht]
    · simp only [adjGet, if_neg hp] at h
      have ht := ih hk.2 h
      simp only [adjAdd, List.map_cons, if_neg hp]
      simp only [adjAdd] at ht
      rw [ht]

theorem addEdgeStep_of_seen (a : List (String × List String)) (e : Edge)
    (hk : (a.map Prod.fst).Nodup) (h : edgeSeen a e) : addEdgeStep a e = a := by
  by_cases hg : (adjHas a e.src && adjHas a e.dst && !(e.src == e.dst)) = true
  · obtain ⟨hs, hd, hne⟩ := addEdgeStep_guard a e hg
    rcases h with (h | h | h) | h
    · rw [hs] at h; cases h
    · rw [hd] at h; cases h
    · exact absurd h hne
    · have h1 : adjAdd a e.src e.dst = a := adjAdd_of_mem a e.src e.dst hk h.1
      unfold addEdgeStep
      rw [if_pos hg, h1, adjAdd_of_mem a e.dst e.src hk h.2]
  · unfold addEdgeStep; rw [if_neg hg]

/-- C7: graph construction is idempotent under edge duplication and
orientation (a repeated edge, or the same edge given in the reverse
direction, leaves the built adjacency unchanged); self-loops never appear;
a listed neighbor relation only involves vertices of the input list and is
symmetric; and each neighbor list holds a vertex at most once. -/
theorem build_adj_spec :
    (∀ (nodes : List String) (es1 es2 es3 : List Edge) (e e2 : Edge),
        e2 = e ∨ e2 = ⟨e.dst, e.src⟩ →
        build_adj nodes (es1 ++ e :: (es2 ++ e2 :: es3)) =
          build_adj nodes (es1 ++ e :: (es2 ++ es3))) ∧
      (∀ (nodes : List String) (edges : List Edge) (u v : String),
        v ∈ adjGet (build_adj nodes edges) u → u ∈ adjGet (build_adj nodes edges) v) ∧
      (∀ (nodes : List String) (edges : List Edge) (u : String),
        u ∉ adjGet (build_adj nodes edges) u) ∧
      (∀ (nodes : List String) (edges : List Edge) (u v : String),
        v ∈ adjGet (build_adj nodes edges) u → u ∈ nodes ∧ v ∈ nodes) ∧
      (∀ (nodes : List String) (edges : List Edge) (u : String),
        (adjGet (build_adj nodes edges) u).Nodup) := by
  refine ⟨?_, ?_, ?_, ?_, ?_⟩
  · intro nodes es1 es2 es3 e e2 he2
    rw [build_adj_eq, build_adj_eq]
    simp only [List.foldl_append, List.foldl_cons]
    have hseen : edgeSeen
        (List.foldl addEdgeStep
          (addEdgeStep (List.foldl addEdgeStep (initAdj nodes) es1) e) es2) e :=
      edgeSeen_foldl es2 _ e (edgeSeen_addEdgeStep_self _ e)
    have hk3 : ((List.foldl addEdgeStep
        (addEdgeStep (List.foldl addEdgeStep (initAdj nodes) es1) e) es2).map
          Prod.fst).Nodup := by
      rw [map_fst_foldl_addEdgeStep, map_fst_addEdgeStep, map_fst_foldl_addEdgeStep]
      exact initAdj_keys_nodup nodes
    have hstep : addEdgeStep
        (List.foldl addEdgeStep
          (addEdgeStep (List.foldl addEdgeStep (initAdj nodes) es1) e) es2) e2 =
        List.foldl addEdgeStep
          (addEdgeStep (List.foldl addEdgeStep (initAdj nodes) es1) e) es2 := by
      apply addEdgeStep_of_seen _ _ hk3
      rcases he2 with rfl | rfl
      · exact hseen
      · exact edgeSeen_rev _ e hseen
    rw [hstep]
  · intro nodes edges u v hv
    exact build_adj_symm nodes edges u v hv
  · intro nodes edges u
    exact build_adj_irrefl nodes edges u
  · intro nodes edges u v hv
    constructor
    · rw [← mem_build_adj_keys nodes edges u, ← adjHas_iff]
      exact mem_adjGet_has _ _ _ hv
    · rw [← mem_build_adj_keys nodes edges v, ← adjHas_iff]
      exact build_adj_closed nodes edges u v hv
  · intro nodes edges u
    exact build_adj_nodupNbrs nodes edges u

/-- Witness for C7: adding the reversed duplicate of edge `A–B` yields the
same adjacency dict. -/
theorem build_adj_spec_witness :
    ((⟨"B", "A"⟩ : Edge) = ⟨"A", "B"⟩ ∨ (⟨"B", "A"⟩ : Edge) = ⟨"B", "A"⟩) ∧
      build_adj ["A", "B"] ([] ++ (⟨"A", "B"⟩ : Edge) :: ([] ++ (⟨"B", "A"⟩ : Edge) :: [])) =
        build_adj ["A", "B"] ([] ++ (⟨"A", "B"⟩ : Edge) :: ([] ++ [])) :=
  ⟨by decide, build_adj_spec.1 ["A", "B"] [] [] [] ⟨"A", "B"⟩ ⟨"B", "A"⟩ (by decide)⟩

/-! ### State restoration on failure (the push/pop discipline) -/

theorem btColors_restore (adj : List (String × List String)) (u : String)
    (cs : List Int) (colors : List (String × Int))
    (recur : List (String × Int) → Bool × List (String × Int) × List Step)
    (hu : dictGet colors u = none)
    (hrec : ∀ c : Int, (recur (dictSet colors u c)).1 = false →
      (recur (dictSet colors u c)).2.1 = dictSet colors u c)
    (hfalse : (btColors adj u cs colors recur).1 = false) :
    (btColors adj u cs colors recur).2.1 = colors := by
  induction cs with
  | nil => rfl
  | cons c cs' ih =>
    by_cases hc : compatible u c colors adj = true
    · by_cases hr : (recur (dictSet colors u c)).1 = true
      · simp only [btColors, if_pos hc, if_pos hr] at hfalse
        exact absurd hfalse (by decide)
      · rw [Bool.not_eq_true] at hr
        have hrestore : (recur (dictSet colors u c)).2.1 = dictSet colors u c :=
          hrec c hr
        have hdel : dictDel (recur (dictSet colors u c)).2.1 u = colors := by
          rw [hrestore]
          exact dictDel_dictSet colors u c hu
        simp only [btColors, if_pos hc, hr, Bool.false_eq_true, if_false, hdel] at hfalse ⊢
        exact ih hfalse
    · simp only [btColors, if_neg hc] at hfalse ⊢
      exact ih hfalse

theorem btNodes_restore (adj : List (String × List String)) (k : Int) :
    ∀ (l : List String) (colors : List (String × Int)), l.Nodup →
      (∀ x ∈ l, dictGet colors x = none) →
      (btNodes adj k l colors).1 = false → (btNodes adj k l colors).2.1 = colors := by
  intro l
  induction l with
  | nil => intro colors _ _ hfalse; simp [btNodes] at hfalse
  | cons u rest ih =>
    intro colors hnd hfresh hfalse
    have hu : dictGet colors u = none := hfresh u (by simp)
    obtain ⟨hur, hndr⟩ := List.nodup_cons.mp hnd
    simp only [btNodes] at hfalse ⊢
    apply btColors_restore adj u _ colors _ hu ?_ hfalse
    intro c hf
    apply ih (dictSet colors u c) hndr ?_ hf
    intro x hx
    have hxne : x ≠ u := fun he => hur (he ▸ hx)
    rw [dictGet_dictSet_ne _ _ _ _ hxne]
    exact hfresh x (List.mem_cons_of_mem u hx)

/-- C9 (implicit): the recursive search restores its state on failure.
Under the invariants that hold at every reachable call of `backtrack`
(the remaining vertices are distinct and still uncolored), a call that
returns `False` leaves the live `colors` dict exactly as it was at entry:
every color committed inside the call has been removed again. -/
theorem backtrack_restores_colors_on_failure (adj : List (String × List String))
    (k : Int) (l : List String) (colors : List (String × Int))
    (hnd : l.Nodup) (hfresh : ∀ x ∈ l, dictGet colors x = none)
    (hfalse : (btNodes adj k l colors).1 = false) :
    (btNodes adj k l colors).2.1 = colors :=
  btNodes_restore adj k l colors hnd hfresh hfalse

/-- Witness for C9: the failing 2-coloring search on the triangle ends with
the empty live assignment it started from. -/
theorem backtrack_restores_colors_on_failure_witness :
    (["A", "B", "C"] : List String).Nodup ∧
      (∀ x ∈ (["A", "B", "C"] : List String), dictGet [] x = none) ∧
      (btNodes (build_adj ["A", "B", "C"] [⟨"A", "B"⟩, ⟨"B", "C"⟩, ⟨"A", "C"⟩]) 2
          ["A", "B", "C"] []).1 = false ∧
      (btNodes (build_adj ["A", "B", "C"] [⟨"A", "B"⟩, ⟨"B", "C"⟩, ⟨"A", "C"⟩]) 2
          ["A", "B", "C"] []).2.1 = [] :=
  ⟨by decide, by decide, by decide,
    backtrack_restores_colors_on_failure _ 2 ["A", "B", "C"] [] (by decide)
      (by decide) (by decide)⟩

/-! ### Valid partial colorings -/

/-- A (partial) assignment is proper for an adjacency dict: no entry's
vertex carries the same color as one of its listed neighbors. -/
def properOn (adj : List (String × List String)) (colors : List (String × Int)) : Prop :=
  ∀ p ∈ adj, ∀ v ∈ p.2, dictGet colors p.1 = none ∨ dictGet colors p.1 ≠ dictGet colors v

theorem adjGet_of_mem (a : List (String × List String))
    (hk : (a.map Prod.fst).Nodup) (p : String × List String) (hp : p ∈ a) :
    adjGet a p.1 = p.2 := by
  induction a with
  | nil => cases hp
  | cons q t ih =>
    rw [List.map_cons, List.nodup_cons] at hk
    rcases List.mem_cons.mp hp with rfl | hp
    · simp [adjGet]
    · have hne : ¬(q.1 = p.1) := fun he =>
        hk.1 (he ▸ List.mem_map_of_mem Prod.fst hp)
      simp only [adjGet, if_neg hne]
      exact ih hk.2 hp

theorem compatible_no_neighbor (adj : List (String × List String))
    (colors : List (String × Int)) (u : String) (c : Int)
    (hcomp : compatible u c colors adj = true) :
    ∀ w ∈ adjGet adj u, dictGet colors w ≠ some c := by
  intro w hw hcon
  have := (List.all_eq_true.mp hcomp) w hw
  simp [dictGetD, hcon] at this

theorem properOn_dictSet (adj : List (String × List String))
    (colors : List (String × Int)) (u : String) (c : Int)
    (hsym : symmAdj adj) (hirr : irreflAdj adj) (hk : (adj.map Prod.fst).Nodup)
    (hcomp : compatible u c colors adj = true)
    (hprop : properOn adj colors) : properOn adj (dictSet colors u c) := by
  intro p hp v hv
  have hpadj : adjGet adj p.1 = p.2 := adjGet_of_mem adj hk p hp
  have hcompat := compatible_no_neighbor adj colors u c hcomp
  by_cases hpu : p.1 = u
  · right
    rw [hpu, dictGet_dictSet_self]
    have hv' : v ∈ adjGet adj u := by rw [← hpu, hpadj]; exact hv
    have hvne : v ≠ u := fun he => hirr u (he ▸ hv')
    rw [dictGet_dictSet_ne _ _ _ _ hvne]
    intro heq
    exact hcompat v hv' heq.symm
  · by_cases hvu : v = u
    · have hv' : v ∈ adjGet adj p.1 := by rw [hpadj]; exact hv
      have hpu' : p.1 ∈ adjGet adj u := hvu ▸ hsym p.1 v hv'
      rw [dictGet_dictSet_ne _ _ _ _ hpu, hvu, dictGet_dictSet_self]
      cases hcase : dictGet colors p.1 with
      | none => exact Or.inl rfl
      | some y =>
        right
        intro he
        exact hcompat p.1 hpu' (hcase ▸ he)
    · rw [dictGet_dictSet_ne _ _ _ _ hpu, dictGet_dictSet_ne _ _ _ _ hvu]
      exact hprop p hp v hv

/-! ### Success post-condition of the search -/

theorem btColors_success (adj : List (String × List String)) (u : String)
    (cs : List Int) (colors : List (String × Int))
    (recur : List (String × Int) → Bool × List (String × Int) × List Step)
    (hu : dictGet colors u = none)
    (hrecRestore : ∀ c : Int, (recur (dictSet colors u c)).1 = false →
      (recur (dictSet colors u c)).2.1 = dictSet colors u c)
    (htrue : (btColors adj u cs colors recur).1 = true) :
    ∃ c ∈ cs, compatible u c colors adj = true ∧
      (recur (dictSet colors u c)).1 = true ∧
      (btColors adj u cs colors recur).2.1 = (recur (dictSet colors u c)).2.1 := by
  induction cs with
  | nil => simp [btColors] at htrue
  | cons c cs' ih =>
    by_cases hc : compatible u c colors adj = true
    · by_cases hr : (recur (dictSet colors u c)).1 = true
      · exact ⟨c, by simp, hc, hr, by simp only [btColors, if_pos hc, if_pos hr]⟩
      · rw [Bool.not_eq_true] at hr
        have hdel : dictDel (recur (dictSet colors u c)).2.1 u = colors := by
          rw [hrecRestore c hr]
          exact dictDel_dictSet colors u c hu
        simp only [btColors, if_pos hc, hr, Bool.false_eq_true, if_false, hdel] at htrue ⊢
        obtain ⟨c2, hmem, h1, h2, h3⟩ := ih htrue
        exact ⟨c2, by simp [hmem], h1, h2, h3⟩
    · simp only [btColors, if_neg hc] at htrue ⊢
      obtain ⟨c2, hmem, h1, h2, h3⟩ := ih htrue
      exact ⟨c2, by simp [hmem], h1, h2, h3⟩

theorem btNodes_success (adj : List (String × List String)) (k : Int)
    (hsym : symmAdj adj) (hirr : irreflAdj adj) (hkn : (adj.map Prod.fst).Nodup) :
    ∀ (l : List String) (colors : List (String × Int)), l.Nodup →
      (∀ x ∈ l, dictGet colors x = none) → properOn adj colors →
      (btNodes adj k l colors).1 = true →
      (∀ x ∈ l, ∃ c : Int, dictGet (btNodes adj k l colors).2.1 x = some c ∧
        0 ≤ c ∧ c < (k.toNat : Int)) ∧
      (∀ x, x ∉ l → dictGet (btNodes adj k l colors).2.1 x = dictGet colors x) ∧
      properOn adj (btNodes adj k l colors).2.1 := by
  intro l
  induction l with
  | nil =>
    intro colors _ _ hprop _
    exact ⟨by simp, fun x _ => rfl, hprop⟩
  | cons u rest ih =>
    intro colors hnd hfresh hprop htrue
    obtain ⟨hur, hndr⟩ := List.nodup_cons.mp hnd
    have hu : dictGet colors u = none := hfresh u (by simp)
    simp only [btNodes] at htrue ⊢
    obtain ⟨c, hcmem, hcomp, hrtrue, hout⟩ :=
      btColors_success adj u _ colors _ hu
        (fun c hf =>
          btNodes_restore adj k rest (dictSet colors u c) hndr
            (fun x hx => by
              rw [dictGet_dictSet_ne _ _ _ _ (fun he => hur (by rw [← he]; exact hx))]
              exact hfresh x (List.mem_cons_of_mem u hx)) hf)
        htrue
    have hc0 : 0 ≤ c ∧ c < (k.toNat : Int) := by
      rcases List.mem_map.mp hcmem with ⟨m, hm, rfl⟩
      have hmr := List.mem_range.mp hm
      exact ⟨Int.ofNat_nonneg m, Int.ofNat_lt.mpr hmr⟩
    have hfresh1 : ∀ x ∈ rest, dictGet (dictSet colors u c) x = none := fun x hx => by
      rw [dictGet_dictSet_ne _ _ _ _ (fun he => hur (by rw [← he]; exact hx))]
      exact hfresh x (List.mem_cons_of_mem u hx)
    have hprop1 : properOn adj (dictSet colors u c) :=
      properOn_dictSet adj colors u c hsym hirr hkn hcomp hprop
    obtain ⟨hA, hB, hC⟩ := ih (dictSet colors u c) hndr hfresh1 hprop1 hrtrue
    rw [hout]
    refine ⟨?_, ?_, hC⟩
    · intro x hx
      rcases List.mem_cons.mp hx with rfl | hx
      · exact ⟨c, by rw [hB x hur, dictGet_dictSet_self], hc0.1, hc0.2⟩
      · exact hA x hx
    · intro x hx
      simp only [List.mem_cons, not_or] at hx
      rw [hB x hx.2, dictGet_dictSet_ne _ _ _ _ hx.1]

/-! ### Solve-level plumbing -/

theorem order_nodes_perm (adj : List (String × List String)) (ord : String) :
    (order_nodes adj ord).Perm (adj.map Prod.fst) := by
  unfold order_nodes
  split
  · exact List.perm_insertionSort _ _
  · exact List.Perm.refl _

theorem order_nodes_nodup (adj : List (String × List String)) (ord : String)
    (h : (adj.map Prod.fst).Nodup) : (order_nodes adj ord).Nodup :=
  ((order_nodes_perm adj ord).nodup_iff).mpr h

theorem mem_order_nodes (adj : List (String × List String)) (ord : String)
    (u : String) : u ∈ order_nodes adj ord ↔ u ∈ adj.map Prod.fst :=
  (order_nodes_perm adj ord).mem_iff

theorem solve_ok_shape (req : SolveRequest)
    (hk : (2 ≤ req.k_colors && req.k_colors ≤ 5) = true)
    (hn : ¬(req.nodes = [])) :
    solve req =
      ⟨(btNodes (build_adj req.nodes req.edges) req.k_colors
          (order_nodes (build_adj req.nodes req.edges) (effectiveOrder req.order)) []).1,
        if (btNodes (build_adj req.nodes req.edges) req.k_colors
            (order_nodes (build_adj req.nodes req.edges) (effectiveOrder req.order)) []).1 then
          (btNodes (build_adj req.nodes req.edges) req.k_colors
            (order_nodes (build_adj req.nodes req.edges) (effectiveOrder req.order)) []).2.1
        else [],
        (btNodes (build_adj req.nodes req.edges) req.k_colors
          (order_nodes (build_adj req.nodes req.edges) (effectiveOrder req.order)) []).2.2,
        if (btNodes (build_adj req.nodes req.edges) req.k_colors
            (order_nodes (build_adj req.nodes req.edges) (effectiveOrder req.order)) []).1 then
          "Solución encontrada."
        else "No existe coloreo con k colores."⟩ := by
  unfold solve color_graph_backtracking
  rw [if_neg (by simp [hk]), if_neg hn]

/-- C1: whenever `solve` reports success, the returned assignment gives
every input vertex a color in `[0, k_colors)` and no two vertices adjacent
in the filtered graph share a color. -/
theorem solve_success_coloring_valid (req : SolveRequest)
    (h : (solve req).ok = true) :
    (∀ u ∈ req.nodes, ∃ c : Int, dictGet (solve req).colors u = some c ∧
      0 ≤ c ∧ c < req.k_colors) ∧
    (∀ p ∈ build_adj req.nodes req.edges, ∀ v ∈ p.2,
      dictGet (solve req).colors p.1 ≠ dictGet (solve req).colors v) := by
  by_cases hk : (2 ≤ req.k_colors && req.k_colors ≤ 5) = true
  · by_cases hn : req.nodes = []
    · exfalso
      rw [show solve req = ⟨false, [], [], "Debes enviar nodos."⟩ from by
        unfold solve; rw [if_neg (by simp [hk]), if_pos hn]] at h
      exact absurd h (by decide)
    · have hshape := solve_ok_shape req hk hn
      set adj := build_adj req.nodes req.edges with hadj
      set l := order_nodes adj (effectiveOrder req.order) with hl
      set rb := btNodes adj req.k_colors l [] with hrb
      rw [hshape] at h ⊢
      have hb : rb.1 = true := h
      simp only [SolveResponse.colors, if_pos hb]
      have hpost := btNodes_success adj req.k_colors (build_adj_symm _ _)
        (build_adj_irrefl _ _) (build_adj_keys_nodup _ _) l []
        (order_nodes_nodup adj _ (build_adj_keys_nodup _ _))
        (fun x _ => rfl)
        (fun p _ v _ => Or.inl rfl) hb
      obtain ⟨hA, _, hC⟩ := hpost
      have hk2 : 2 ≤ req.k_colors ∧ req.k_colors ≤ 5 := by
        simp only [Bool.and_eq_true, decide_eq_true_eq] at hk
        exact hk
      have hcast : ((req.k_colors.toNat : Int)) = req.k_colors :=
        Int.toNat_of_nonneg (by omega)
      constructor
      · intro u hu
        have hul : u ∈ l := by
          rw [hl, mem_order_nodes, hadj, mem_build_adj_keys]
          exact hu
        obtain ⟨c, hc1, hc2, hc3⟩ := hA u hul
        exact ⟨c, hc1, hc2, by rw [← hcast]; exact hc3⟩
      · intro p hp v hv
        have hpl : p.1 ∈ l := by
          rw [hl, mem_order_nodes]
          exact List.mem_map_of_mem Prod.fst hp
        obtain ⟨c, hc1, _, _⟩ := hA p.1 hpl
        rcases hC p hp v hv with hnone | hne
        · rw [hc1] at hnone; cases hnone
        · exact hne
  · exfalso
    rw [show solve req = ⟨false, [], [], "k_colors debe estar entre 2 y 5."⟩ from by
      unfold solve; rw [if_pos (by simp [hk])]] at h
    exact absurd h (by decide)

/-- Witness for C1: the triangle with `k = 3` succeeds and the theorem's
conclusion holds there. -/
theorem solve_success_coloring_valid_witness :
    (solve ⟨["A", "B", "C"], [⟨"A", "B"⟩, ⟨"B", "C"⟩, ⟨"A", "C"⟩], 3, none⟩).ok = true ∧
      ((∀ u ∈ (["A", "B", "C"] : List String), ∃ c : Int,
          dictGet (solve ⟨["A", "B", "C"],
            [⟨"A", "B"⟩, ⟨"B", "C"⟩, ⟨"A", "C"⟩], 3, none⟩).colors u = some c ∧
          0 ≤ c ∧ c < 3) ∧
        (∀ p ∈ build_adj ["A", "B", "C"] [⟨"A", "B"⟩, ⟨"B", "C"⟩, ⟨"A", "C"⟩],
          ∀ v ∈ p.2,
          dictGet (solve ⟨["A", "B", "C"],
            [⟨"A", "B"⟩, ⟨"B", "C"⟩, ⟨"A", "C"⟩], 3, none⟩).colors p.1 ≠
            dictGet (solve ⟨["A", "B", "C"],
              [⟨"A", "B"⟩, ⟨"B", "C"⟩, ⟨"A", "C"⟩], 3, none⟩).colors v)) :=
  ⟨by decide,
    solve_success_coloring_valid
      ⟨["A", "B", "C"], [⟨"A", "B"⟩, ⟨"B", "C"⟩, ⟨"A", "C"⟩], 3, none⟩ (by decide)⟩

/-! ### Per-step trace invariants -/

/-- Properties of a recorded step, relative to the set `dom` of vertices
that were still uncolored when the enclosing call started: its snapshot is
a proper partial coloring; an `assign` or `backtrack` snapshot shows the
step's vertex holding the step's color; a `try` snapshot does not contain
the step's vertex, which is one of the still-uncolored vertices. -/
def stepOkFor (adj : List (String × List String)) (dom : List String) (s : Step) : Prop :=
  properOn adj s.snapshot ∧
    (s.action = "assign" → dictGet s.snapshot s.node = s.color) ∧
    (s.action = "backtrack" → dictGet s.snapshot s.node = s.color) ∧
    (s.action = "try" → dictGet s.snapshot s.node = none ∧ s.node ∈ dom)

theorem stepOkFor_mono (adj : List (String × List String)) (dom : List String)
    (u : String) (s : Step) (h : stepOkFor adj dom s) : stepOkFor adj (u :: dom) s :=
  ⟨h.1, h.2.1, h.2.2.1, fun ht => ⟨(h.2.2.2 ht).1, List.mem_cons_of_mem u (h.2.2.2 ht).2⟩⟩

theorem btColors_steps (adj : List (String × List String)) (u : String)
    (cs : List Int) (colors : List (String × Int)) (dom : List String)
    (recur : List (String × Int) → Bool × List (String × Int) × List Step)
    (hsym : symmAdj adj) (hirr : irreflAdj adj) (hkn : (adj.map Prod.fst).Nodup)
    (hu : dictGet colors u = none) (hprop : properOn adj colors)
    (hrecRestore : ∀ c : Int, (recur (dictSet colors u c)).1 = false →
      (recur (dictSet colors u c)).2.1 = dictSet colors u c)
    (hrecSteps : ∀ c : Int, compatible u c colors adj = true →
      ∀ s ∈ (recur (dictSet colors u c)).2.2, stepOkFor adj dom s) :
    ∀ s ∈ (btColors adj u cs colors recur).2.2, stepOkFor adj (u :: dom) s := by
  induction cs with
  | nil => intro s hs; simp [btColors] at hs
  | cons c cs' ih =>
    have htry : stepOkFor adj (u :: dom) ⟨"try", u, some c, colors⟩ :=
      ⟨hprop, fun h => by simp at h, fun h => by simp at h,
        fun _ => ⟨hu, by simp⟩⟩
    by_cases hc : compatible u c colors adj = true
    · have hprop1 : properOn adj (dictSet colors u c) :=
        properOn_dictSet adj colors u c hsym hirr hkn hc hprop
      have hassign : stepOkFor adj (u :: dom) ⟨"assign", u, some c, dictSet colors u c⟩ :=
        ⟨hprop1, fun _ => dictGet_dictSet_self colors u c,
          fun h => by simp at h, fun h => by simp at h⟩
      by_cases hr : (recur (dictSet colors u c)).1 = true
      · intro s hs
        simp only [btColors, if_pos hc, if_pos hr, List.mem_cons] at hs
        rcases hs with rfl | rfl | hs
        · exact htry
        · exact hassign
        · exact stepOkFor_mono adj dom u s (hrecSteps c hc s hs)
      · rw [Bool.not_eq_true] at hr
        have hrestore : (recur (dictSet colors u c)).2.1 = dictSet colors u c :=
          hrecRestore c hr
        have hdel : dictDel (recur (dictSet colors u c)).2.1 u = colors := by
          rw [hrestore]
          exact dictDel_dictSet colors u c hu
        have hback : stepOkFor adj (u :: dom)
            ⟨"backtrack", u, some c, (recur (dictSet colors u c)).2.1⟩ := by
          rw [hrestore]
          exact ⟨hprop1, fun h => by simp at h,
            fun _ => dictGet_dictSet_self colors u c, fun h => by simp at h⟩
        intro s hs
        simp only [btColors, if_pos hc, hr, Bool.false_eq_true, if_false, hdel,
          List.mem_cons, List.mem_append] at hs
        rcases hs with rfl | rfl | hs | rfl | hs
        · exact htry
        · exact hassign
        · exact stepOkFor_mono adj dom u s (hrecSteps c hc s hs)
        · exact hback
        · exact ih s hs
    · have hconf : stepOkFor adj (u :: dom) ⟨"conflict", u, some c, colors⟩ :=
        ⟨hprop, fun h => by simp at h, fun h => by simp at h,
          fun h => by simp at h⟩
      intro s hs
      simp only [btColors, if_neg hc, List.mem_cons] at hs
      rcases hs with rfl | rfl | hs
      · exact htry
      · exact hconf
      · exact ih s hs

theorem btNodes_steps (adj : List (String × List String)) (k : Int)
    (hsym : symmAdj adj) (hirr : irreflAdj adj) (hkn : (adj.map Prod.fst).Nodup) :
    ∀ (l : List String) (colors : List (String × Int)), l.Nodup →
      (∀ x ∈ l, dictGet colors x = none) → properOn adj colors →
      ∀ s ∈ (btNodes adj k l colors).2.2, stepOkFor adj l s := by
  intro l
  induction l with
  | nil =>
    intro colors _ _ hprop s hs
    simp only [btNodes, List.mem_cons] at hs
    rcases hs with rfl | hs
    · exact ⟨hprop, fun h => by simp at h, fun h => by simp at h,
        fun h => by simp at h⟩
    · cases hs
  | cons u rest ih =>
    intro colors hnd hfresh hprop
    obtain ⟨hur, hndr⟩ := List.nodup_cons.mp hnd
    have hu : dictGet colors u = none := hfresh u (by simp)
    have hfresh1 : ∀ c : Int, ∀ x ∈ rest, dictGet (dictSet colors u c) x = none :=
      fun c x hx => by
        rw [dictGet_dictSet_ne _ _ _ _ (fun he => hur (by rw [← he]; exact hx))]
        exact hfresh x (List.mem_cons_of_mem u hx)
    simp only [btNodes]
    exact btColors_steps adj u _ colors rest _ hsym hirr hkn hu hprop
      (fun c hf => btNodes_restore adj k rest (dictSet colors u c) hndr (hfresh1 c) hf)
      (fun c hc s hs =>
        ih (dictSet colors u c) hndr (hfresh1 c)
          (properOn_dictSet adj colors u c hsym hirr hkn hc hprop) s hs)

theorem solve_steps_ok (req : SolveRequest) :
    ∀ s ∈ (solve req).steps,
      stepOkFor (build_adj req.nodes req.edges)
        (order_nodes (build_adj req.nodes req.edges) (effectiveOrder req.order)) s := by
  by_cases hk : (2 ≤ req.k_colors && req.k_colors ≤ 5) = true
  · by_cases hn : req.nodes = []
    · rw [show solve req = ⟨false, [], [], "Debes enviar nodos."⟩ from by
        unfold solve; rw [if_neg (by simp [hk]), if_pos hn]]
      intro s hs
      simp at hs
    · rw [solve_ok_shape req hk hn]
      intro s hs
      exact btNodes_steps _ req.k_colors (build_adj_symm _ _) (build_adj_irrefl _ _)
        (build_adj_keys_nodup _ _) _ []
        (order_nodes_nodup _ _ (build_adj_keys_nodup _ _))
        (fun x _ => rfl) (fun p _ v _ => Or.inl rfl) s hs
  · rw [show solve req = ⟨false, [], [], "k_colors debe estar entre 2 y 5."⟩ from by
      unfold solve; rw [if_pos (by simp [hk])]]
    intro s hs
    simp at hs

/-- C2: every `assign` step recorded during a solve carries a snapshot that
is a value of its own: in the final returned trace it still shows the
step's vertex holding the step's color, even when a later backtrack removed
that vertex from the live assignment (on a failed search the live
assignment ends empty while every recorded `assign` snapshot keeps its
entry). This is the observable content of "the snapshot is a deep copy
taken at recording time, never an alias of the live dict". -/
theorem assign_snapshot_shows_vertex_colored (req : SolveRequest) :
    ∀ s ∈ (solve req).steps, s.action = "assign" →
      dictGet s.snapshot s.node = s.color :=
  fun s hs ha => (solve_steps_ok req s hs).2.1 ha

/-- Witness for C2 on the failing triangle search with `k = 2`: the first
`assign` step's snapshot still shows `A ↦ 0` in the returned trace, though
the live assignment was cleared by the time the search ended. -/
theorem assign_snapshot_shows_vertex_colored_witness :
    (⟨"assign", "A", some 0, [("A", 0)]⟩ : Step) ∈
        (solve ⟨["A", "B", "C"], [⟨"A", "B"⟩, ⟨"B", "C"⟩, ⟨"A", "C"⟩], 2, none⟩).steps ∧
      (⟨"assign", "A", some 0, [("A", 0)]⟩ : Step).action = "assign" ∧
      dictGet (⟨"assign", "A", some 0, [("A", 0)]⟩ : Step).snapshot
        (⟨"assign", "A", some 0, [("A", 0)]⟩ : Step).node =
        (⟨"assign", "A", some 0, [("A", 0)]⟩ : Step).color :=
  ⟨by decide, rfl,
    assign_snapshot_shows_vertex_colored
      ⟨["A", "B", "C"], [⟨"A", "B"⟩, ⟨"B", "C"⟩, ⟨"A", "C"⟩], 2, none⟩
      ⟨"assign", "A", some 0, [("A", 0)]⟩ (by decide) rfl⟩

/-- C10 (implicit): every snapshot recorded in the trace — on `try`,
`assign`, `conflict`, `backtrack` and `done` steps alike — is itself a
proper partial coloring of the filtered graph: no two adjacent vertices
carry the same color in any recorded snapshot. -/
theorem trace_snapshots_proper (req : SolveRequest) :
    ∀ s ∈ (solve req).steps,
      properOn (build_adj req.nodes req.edges) s.snapshot :=
  fun s hs => (solve_steps_ok req s hs).1

/-- Witness for C10 at a concrete recorded step of the triangle search. -/
theorem trace_snapshots_proper_witness :
    (⟨"assign", "B", some 1, [("A", 0), ("B", 1)]⟩ : Step) ∈
        (solve ⟨["A", "B", "C"], [⟨"A", "B"⟩, ⟨"B", "C"⟩, ⟨"A", "C"⟩], 2, none⟩).steps ∧
      properOn (build_adj ["A", "B", "C"] [⟨"A", "B"⟩, ⟨"B", "C"⟩, ⟨"A", "C"⟩])
        (⟨"assign", "B", some 1, [("A", 0), ("B", 1)]⟩ : Step).snapshot :=
  ⟨by decide,
    trace_snapshots_proper
      ⟨["A", "B", "C"], [⟨"A", "B"⟩, ⟨"B", "C"⟩, ⟨"A", "C"⟩], 2, none⟩
      ⟨"assign", "B", some 1, [("A", 0), ("B", 1)]⟩ (by decide)⟩

/-! ### Conflicts immediately follow their try, with the same data -/

/-- Every `conflict` step in the trace sits immediately after a `try` step
for the same vertex and color whose snapshot is identical (the snapshot is
unchanged by the failed compatibility check); in particular a trace never
begins with a `conflict`. -/
def ConflictAfterTry (t : List Step) : Prop :=
  (∀ s : Step, t[0]? = some s → s.action ≠ "conflict") ∧
    (∀ (i : Nat) (s : Step), t[i + 1]? = some s → s.action = "conflict" →
      t[i]? = some ⟨"try", s.node, s.color, s.snapshot⟩)

theorem conflictAfterTry_nil : ConflictAfterTry [] :=
  ⟨fun s hs => by simp at hs, fun i s hs => by simp at hs⟩

theorem conflictAfterTry_append (t1 t2 : List Step)
    (h1 : ConflictAfterTry t1) (h2 : ConflictAfterTry t2) :
    ConflictAfterTry (t1 ++ t2) := by
  constructor
  · intro s hs
    cases t1 with
    | nil => exact h2.1 s hs
    | cons x t =>
      rw [List.getElem?_append_left (by simp)] at hs
      exact h1.1 s hs
  · intro i s hs hc
    by_cases hi : i + 1 < t1.length
    · rw [List.getElem?_append_left hi] at hs
      rw [List.getElem?_append_left (by omega)]
      exact h1.2 i s hs hc
    · have hge : t1.length ≤ i + 1 := by omega
      rw [List.getElem?_append_right hge] at hs
      by_cases hieq : i + 1 = t1.length
      · exfalso
        rw [hieq, Nat.sub_self] at hs
        exact (h2.1 s hs) hc
      · have hgt : t1.length ≤ i := by omega
        have hj : i + 1 - t1.length = (i - t1.length) + 1 := by omega
        rw [hj] at hs
        have := h2.2 (i - t1.length) s hs hc
        rw [List.getElem?_append_right hgt]
        exact this

theorem conflictAfterTry_pair_try (x y : Step)
    (hx : x.action = "try") (hy : y.action = "try" ∨ y.action = "assign" ∨
      (y.action = "conflict" ∧ x = ⟨"try", y.node, y.color, y.snapshot⟩)) :
    ConflictAfterTry [x, y] := by
  constructor
  · intro s hs
    simp only [List.getElem?_cons_zero, Option.some.injEq] at hs
    rw [← hs, hx]
    decide
  · intro i s hs hc
    match i with
    | 0 =>
      simp only [List.getElem?_cons_succ, List.getElem?_cons_zero,
        Option.some.injEq] at hs
      subst hs
      rcases hy with hy | hy | hy
      · rw [hy] at hc; simp at hc
      · rw [hy] at hc; simp at hc
      · simp only [List.getElem?_cons_zero, Option.some.injEq]
        exact hy.2
    | n + 1 => simp at hs

theorem conflictAfterTry_single (x : Step) (hx : x.action ≠ "conflict") :
    ConflictAfterTry [x] := by
  constructor
  · intro s hs
    simp only [List.getElem?_cons_zero, Option.some.injEq] at hs
    rw [← hs]
    exact hx
  · intro i s hs
    match i with
    | 0 => simp at hs
    | n + 1 => simp at hs

theorem btColors_conflictAfterTry (adj : List (String × List String)) (u : String)
    (cs : List Int) (colors : List (String × Int))
    (recur : List (String × Int) → Bool × List (String × Int) × List Step)
    (hrec : ∀ d : List (String × Int), ConflictAfterTry (recur d).2.2) :
    ConflictAfterTry (btColors adj u cs colors recur).2.2 := by
  induction cs generalizing colors with
  | nil => exact conflictAfterTry_nil
  | cons c cs' ih =>
    by_cases hc : compatible u c colors adj = true
    · by_cases hr : (recur (dictSet colors u c)).1 = true
      · have : (btColors adj u (c :: cs') colors recur).2.2 =
            [⟨"try", u, some c, colors⟩, ⟨"assign", u, some c, dictSet colors u c⟩] ++
              (recur (dictSet colors u c)).2.2 := by
          simp [btColors, if_pos hc, if_pos hr]
        rw [this]
        exact conflictAfterTry_append _ _
          (conflictAfterTry_pair_try _ _ rfl (Or.inr (Or.inl rfl)))
          (hrec _)
      · rw [Bool.not_eq_true] at hr
        have : (btColors adj u (c :: cs') colors recur).2.2 =
            [⟨"try", u, some c, colors⟩, ⟨"assign", u, some c, dictSet colors u c⟩] ++
              ((recur (dictSet colors u c)).2.2 ++
                ([⟨"backtrack", u, some c, (recur (dictSet colors u c)).2.1⟩] ++
                  (btColors adj u cs' (dictDel (recur (dictSet colors u c)).2.1 u)
                    recur).2.2)) := by
          simp [btColors, if_pos hc, hr]
        rw [this]
        refine conflictAfterTry_append _ _
          (conflictAfterTry_pair_try _ _ rfl (Or.inr (Or.inl rfl)))
          (conflictAfterTry_append _ _ (hrec _)
            (conflictAfterTry_append _ _
              (conflictAfterTry_single _ (by simp)) ?_))
        exact ih _
    · have : (btColors adj u (c :: cs') colors recur).2.2 =
          [⟨"try", u, some c, colors⟩, ⟨"conflict", u, some c, colors⟩] ++
            (btColors adj u cs' colors recur).2.2 := by
        simp [btColors, if_neg hc]
      rw [this]
      exact conflictAfterTry_append _ _
        (conflictAfterTry_pair_try _ _ rfl (Or.inr (Or.inr ⟨rfl, rfl⟩)))
        (ih _)

theorem btNodes_conflictAfterTry (adj : List (String × List String)) (k : Int) :
    ∀ (l : List String) (colors : List (String × Int)),
      ConflictAfterTry (btNodes adj k l colors).2.2 := by
  intro l
  induction l with
  | nil =>
    intro colors
    exact conflictAfterTry_single _ (by simp)
  | cons u rest ih =>
    intro colors
    simp only [btNodes]
    exact btColors_conflictAfterTry adj u _ colors _ (fun d => ih d)

/-! ### Candidate colors are tried in increasing order from 0 -/

/-- The colors of the `try` steps recorded for vertex `u`, in trace order. -/
def uTryColors (t : List Step) (u : String) : List Int :=
  t.filterMap (fun s => if s.action = "try" ∧ s.node = u then s.color else none)

/-- `chain01 p l`: every entry of `l` is either `0` (a fresh activation of
the vertex) or one more than the previous entry (the next candidate within
the same activation); `p` is the color of the previous `try`, `-1` at the
start so that the first entry must be `0` either way. -/
def chain01 : Int → List Int → Prop
  | _, [] => True
  | p, c :: t => (c = 0 ∨ c = p + 1) ∧ chain01 c t

/-- `ConsecFrom a l`: `l` is the consecutive run `a, a+1, ...`. -/
def ConsecFrom : Int → List Int → Prop
  | _, [] => True
  | a, c :: t => c = a ∧ ConsecFrom (a + 1) t

theorem chain01_of_neg1 (t : List Int) (p : Int) (h : chain01 (-1) t) :
    chain01 p t := by
  cases t with
  | nil => trivial
  | cons c t =>
    obtain ⟨h1, h2⟩ := h
    have hc : c = 0 := by omega
    exact ⟨Or.inl hc, h2⟩

theorem chain01_append (p : Int) (t1 t2 : List Int)
    (h1 : chain01 p t1) (h2 : chain01 (-1) t2) : chain01 p (t1 ++ t2) := by
  induction t1 generalizing p with
  | nil => exact chain01_of_neg1 t2 p h2
  | cons c t ih => exact ⟨h1.1, ih c h1.2⟩

theorem consecFrom_range (n : Nat) :
    ∀ a : Nat, ConsecFrom (Int.ofNat a)
      ((List.range n).map (fun i => Int.ofNat (a + i))) := by
  induction n with
  | zero => intro a; trivial
  | succ n ih =>
    intro a
    rw [List.range_succ_eq_map, List.map_cons, List.map_map]
    refine ⟨by simp, ?_⟩
    have heq : (List.range n).map ((fun i => Int.ofNat (a + i)) ∘ Nat.succ) =
        (List.range n).map (fun i => Int.ofNat ((a + 1) + i)) := by
      apply List.map_congr_left
      intro i _
      simp only [Function.comp]
      congr 1
      omega
    rw [heq]
    have := ih (a + 1)
    have hcast : Int.ofNat (a + 1) = Int.ofNat a + 1 := by simp
    rw [hcast] at this
    exact this

theorem consecFrom_range0 (n : Nat) :
    ConsecFrom 0 ((List.range n).map Int.ofNat) := by
  have h := consecFrom_range n 0
  have heq : (List.range n).map (fun i => Int.ofNat (0 + i)) =
      (List.range n).map Int.ofNat := by
    apply List.map_congr_left
    intro i _
    congr 1
    omega
  rw [heq] at h
  exact h

theorem uTryColors_append (t1 t2 : List Step) (u : String) :
    uTryColors (t1 ++ t2) u = uTryColors t1 u ++ uTryColors t2 u := by
  simp [uTryColors, List.filterMap_append]

theorem uTryColors_nil_of (t : List Step) (u : String)
    (h : ∀ s ∈ t, s.action = "try" → s.node ≠ u) : uTryColors t u = [] := by
  induction t with
  | nil => rfl
  | cons s t ih =>
    have hcond : ¬(s.action = "try" ∧ s.node = u) := by
      rintro ⟨h1, h2⟩
      exact h s (by simp) h1 h2
    simp only [uTryColors, List.filterMap_cons, if_neg hcond]
    exact ih (fun q hq => h q (by simp [hq]))

theorem btColors_try_node (adj : List (String × List String)) (u : String)
    (cs : List Int) (colors : List (String × Int)) (dom : List String)
    (recur : List (String × Int) → Bool × List (String × Int) × List Step)
    (hrec : ∀ d : List (String × Int), ∀ s ∈ (recur d).2.2,
      s.action = "try" → s.node ∈ dom) :
    ∀ s ∈ (btColors adj u cs colors recur).2.2, s.action = "try" →
      s.node ∈ u :: dom := by
  induction cs generalizing colors with
  | nil => intro s hs; simp [btColors] at hs
  | cons c cs' ih =>
    intro s hs ht
    by_cases hc : compatible u c colors adj = true
    · by_cases hr : (recur (dictSet colors u c)).1 = true
      · simp only [btColors, if_pos hc, if_pos hr, List.mem_cons] at hs
        rcases hs with rfl | rfl | hs
        · simp
        · simp at ht
        · exact List.mem_cons_of_mem u (hrec _ s hs ht)
      · rw [Bool.not_eq_true] at hr
        simp only [btColors, if_pos hc, hr, Bool.false_eq_true, if_false,
          List.mem_cons, List.mem_append] at hs
        rcases hs with rfl | rfl | hs | rfl | hs
        · simp
        · simp at ht
        · exact List.mem_cons_of_mem u (hrec _ s hs ht)
        · simp at ht
        · exact ih _ s hs ht
    · simp only [btColors, if_neg hc, List.mem_cons] at hs
      rcases hs with rfl | rfl | hs
      · simp
      · simp at ht
      · exact ih _ s hs ht

theorem btNodes_try_node (adj : List (String × List String)) (k : Int) :
    ∀ (l : List String) (colors : List (String × Int)),
      ∀ s ∈ (btNodes adj k l colors).2.2, s.action = "try" → s.node ∈ l := by
  intro l
  induction l with
  | nil =>
    intro colors s hs ht
    simp only [btNodes, List.mem_cons] at hs
    rcases hs with rfl | hs
    · simp at ht
    · simp at hs
  | cons u rest ih =>
    intro colors
    simp only [btNodes]
    exact btColors_try_node adj u _ colors rest _ (fun d => ih d)

theorem uTryColors_cons_try_self (u : String) (c : Int)
    (snap : List (String × Int)) (t : List Step) :
    uTryColors (⟨"try", u, some c, snap⟩ :: t) u = c :: uTryColors t u := by
  simp [uTryColors, List.filterMap_cons]

theorem uTryColors_cons_try_other (u w : String) (c : Int)
    (snap : List (String × Int)) (t : List Step) (hw : w ≠ u) :
    uTryColors (⟨"try", u, some c, snap⟩ :: t) w = uTryColors t w := by
  simp [uTryColors, List.filterMap_cons, Ne.symm hw]

theorem uTryColors_cons_nontry (act v : String) (c : Option Int)
    (snap : List (String × Int)) (t : List Step) (w : String)
    (hact : ¬(act = "try")) :
    uTryColors (⟨act, v, c, snap⟩ :: t) w = uTryColors t w := by
  simp [uTryColors, List.filterMap_cons, hact]

theorem btColors_tryinc (adj : List (String × List String)) (u : String)
    (cs : List Int) (colors : List (String × Int)) (a : Int)
    (recur : List (String × Int) → Bool × List (String × Int) × List Step)
    (hu : dictGet colors u = none)
    (hrecRestore : ∀ c : Int, (recur (dictSet colors u c)).1 = false →
      (recur (dictSet colors u c)).2.1 = dictSet colors u c)
    (hcs : ConsecFrom a cs)
    (hrecU : ∀ c : Int, uTryColors (recur (dictSet colors u c)).2.2 u = [])
    (hrecOther : ∀ (c : Int) (w : String), w ≠ u →
      chain01 (-1) (uTryColors (recur (dictSet colors u c)).2.2 w)) :
    chain01 (a - 1) (uTryColors (btColors adj u cs colors recur).2.2 u) ∧
      (∀ w, w ≠ u → chain01 (-1) (uTryColors (btColors adj u cs colors recur).2.2 w)) := by
  induction cs generalizing a with
  | nil => exact ⟨trivial, fun w _ => trivial⟩
  | cons c cs' ih =>
    obtain ⟨rfl, hcs'⟩ := hcs
    by_cases hc : compatible u c colors adj = true
    · by_cases hr : (recur (dictSet colors u c)).1 = true
      · have htr : (btColors adj u (c :: cs') colors recur).2.2 =
            ⟨"try", u, some c, colors⟩ :: ⟨"assign", u, some c, dictSet colors u c⟩ ::
              (recur (dictSet colors u c)).2.2 := by
          simp [btColors, if_pos hc, if_pos hr]
        rw [htr]
        constructor
        · rw [uTryColors_cons_try_self,
            uTryColors_cons_nontry _ _ _ _ _ _ (by decide), hrecU c]
          exact ⟨Or.inr (by ring), trivial⟩
        · intro w hw
          rw [uTryColors_cons_try_other _ _ _ _ _ hw,
            uTryColors_cons_nontry _ _ _ _ _ _ (by decide)]
          exact hrecOther c w hw
      · rw [Bool.not_eq_true] at hr
        have hdel : dictDel (recur (dictSet colors u c)).2.1 u = colors := by
          rw [hrecRestore c hr]
          exact dictDel_dictSet colors u c hu
        have htr : (btColors adj u (c :: cs') colors recur).2.2 =
            ⟨"try", u, some c, colors⟩ :: ⟨"assign", u, some c, dictSet colors u c⟩ ::
              ((recur (dictSet colors u c)).2.2 ++
                ⟨"backtrack", u, some c, (recur (dictSet colors u c)).2.1⟩ ::
                  (btColors adj u cs' colors recur).2.2) := by
          simp [btColors, if_pos hc, hr, hdel]
        obtain ⟨ihU, ihW⟩ := ih (c + 1) hcs'
        rw [htr]
        constructor
        · rw [uTryColors_cons_try_self,
            uTryColors_cons_nontry _ _ _ _ _ _ (by decide),
            uTryColors_append, hrecU c,
            uTryColors_cons_nontry _ _ _ _ _ _ (by decide)]
          refine ⟨Or.inr (by ring), ?_⟩
          have harith : c + 1 - 1 = c := by ring
          rw [harith] at ihU
          exact ihU
        · intro w hw
          rw [uTryColors_cons_try_other _ _ _ _ _ hw,
            uTryColors_cons_nontry _ _ _ _ _ _ (by decide),
            uTryColors_append,
            uTryColors_cons_nontry _ _ _ _ _ _ (by decide)]
          exact chain01_append _ _ _ (hrecOther c w hw) (ihW w hw)
    · have htr : (btColors adj u (c :: cs') colors recur).2.2 =
          ⟨"try", u, some c, colors⟩ :: ⟨"conflict", u, some c, colors⟩ ::
            (btColors adj u cs' colors recur).2.2 := by
        simp [btColors, if_neg hc]
      obtain ⟨ihU, ihW⟩ := ih (c + 1) hcs'
      rw [htr]
      constructor
      · rw [uTryColors_cons_try_self,
          uTryColors_cons_nontry _ _ _ _ _ _ (by decide)]
        refine ⟨Or.inr (by ring), ?_⟩
        have harith : c + 1 - 1 = c := by ring
        rw [harith] at ihU
        exact ihU
      · intro w hw
        rw [uTryColors_cons_try_other _ _ _ _ _ hw,
          uTryColors_cons_nontry _ _ _ _ _ _ (by decide)]
        exact ihW w hw

theorem btNodes_tryinc (adj : List (String × List String)) (k : Int) :
    ∀ (l : List String) (colors : List (String × Int)), l.Nodup →
      (∀ x ∈ l, dictGet colors x = none) →
      ∀ w, chain01 (-1) (uTryColors (btNodes adj k l colors).2.2 w) := by
  intro l
  induction l with
  | nil =>
    intro colors _ _ w
    simp only [btNodes]
    rw [uTryColors_cons_nontry _ _ _ _ _ _ (by decide)]
    trivial
  | cons u rest ih =>
    intro colors hnd hfresh w
    obtain ⟨hur, hndr⟩ := List.nodup_cons.mp hnd
    have hu : dictGet colors u = none := hfresh u (by simp)
    have hfresh1 : ∀ c : Int, ∀ x ∈ rest, dictGet (dictSet colors u c) x = none :=
      fun c x hx => by
        rw [dictGet_dictSet_ne _ _ _ _ (fun he => hur (by rw [← he]; exact hx))]
        exact hfresh x (List.mem_cons_of_mem u hx)
    simp only [btNodes]
    have h := btColors_tryinc adj u _ colors 0 _ hu
      (fun c hf => btNodes_restore adj k rest (dictSet colors u c) hndr (hfresh1 c) hf)
      (consecFrom_range0 k.toNat)
      (fun c => uTryColors_nil_of _ u (fun s hs ht he =>
        hur (he ▸ btNodes_try_node adj k rest (dictSet colors u c) s hs ht)))
      (fun c w2 hw2 => ih (dictSet colors u c) hndr (hfresh1 c) w2)
    by_cases hw : w = u
    · subst hw
      have h1 := h.1
      rw [show (0 : Int) - 1 = -1 from by ring] at h1
      exact h1
    · exact h.2 w hw

/-- C4: shape of the per-vertex color loop in the recorded trace.
(1) For every vertex, the colors of its `try` steps form runs that start
at 0 and increase by exactly 1 within an activation — candidates are tried
in increasing numeric order from 0.
(2) Every `try` step's snapshot is the pre-assignment state: it does not
contain the tried vertex (the `try` is recorded before the compatibility
check commits anything).
(3) Every `conflict` step immediately follows a `try` step for the same
vertex and color with an identical snapshot (the snapshot is unchanged by
an incompatible candidate).
(4) Every `backtrack` step's snapshot still shows the abandoned vertex
holding the abandoned color — it is recorded before the vertex is removed
from the live assignment and the next color is tried. -/
theorem color_loop_trace_shape (req : SolveRequest) :
    (∀ u : String, chain01 (-1) (uTryColors (solve req).steps u)) ∧
      (∀ s ∈ (solve req).steps, s.action = "try" →
        dictGet s.snapshot s.node = none) ∧
      ConflictAfterTry (solve req).steps ∧
      (∀ s ∈ (solve req).steps, s.action = "backtrack" →
        dictGet s.snapshot s.node = s.color) := by
  refine ⟨?_, fun s hs ht => ((solve_steps_ok req s hs).2.2.2 ht).1, ?_,
    fun s hs hb => (solve_steps_ok req s hs).2.2.1 hb⟩
  · intro u
    by_cases hk : (2 ≤ req.k_colors && req.k_colors ≤ 5) = true
    · by_cases hn : req.nodes = []
      · rw [show solve req = ⟨false, [], [], "Debes enviar nodos."⟩ from by
          unfold solve; rw [if_neg (by simp [hk]), if_pos hn]]
        trivial
      · rw [solve_ok_shape req hk hn]
        exact btNodes_tryinc _ req.k_colors _ []
          (order_nodes_nodup _ _ (build_adj_keys_nodup _ _)) (fun x _ => rfl) u
    · rw [show solve req = ⟨false, [], [], "k_colors debe estar entre 2 y 5."⟩ from by
        unfold solve; rw [if_pos (by simp [hk])]]
      trivial
  · by_cases hk : (2 ≤ req.k_colors && req.k_colors ≤ 5) = true
    · by_cases hn : req.nodes = []
      · rw [show solve req = ⟨false, [], [], "Debes enviar nodos."⟩ from by
          unfold solve; rw [if_neg (by simp [hk]), if_pos hn]]
        exact conflictAfterTry_nil
      · rw [solve_ok_shape req hk hn]
        exact btNodes_conflictAfterTry _ req.k_colors _ []
    · rw [show solve req = ⟨false, [], [], "k_colors debe estar entre 2 y 5."⟩ from by
        unfold solve; rw [if_pos (by simp [hk])]]
      exact conflictAfterTry_nil

/-- Witness for C4 on the failing triangle search with `k = 2`, checking
each conjunct at a concrete vertex or step of that run. -/
theorem color_loop_trace_shape_witness :
    chain01 (-1)
        (uTryColors (solve ⟨["A", "B", "C"],
          [⟨"A", "B"⟩, ⟨"B", "C"⟩, ⟨"A", "C"⟩], 2, none⟩).steps "A") ∧
      ((⟨"try", "B", some 0, [("A", 0)]⟩ : Step) ∈
          (solve ⟨["A", "B", "C"],
            [⟨"A", "B"⟩, ⟨"B", "C"⟩, ⟨"A", "C"⟩], 2, none⟩).steps ∧
        dictGet [("A", 0)] "B" = none) ∧
      ConflictAfterTry (solve ⟨["A", "B", "C"],
        [⟨"A", "B"⟩, ⟨"B", "C"⟩, ⟨"A", "C"⟩], 2, none⟩).steps ∧
      ((⟨"backtrack", "B", some 1, [("A", 0), ("B", 1)]⟩ : Step) ∈
          (solve ⟨["A", "B", "C"],
            [⟨"A", "B"⟩, ⟨"B", "C"⟩, ⟨"A", "C"⟩], 2, none⟩).steps ∧
        dictGet [("A", 0), ("B", 1)] "B" = some 1) :=
  ⟨(color_loop_trace_shape ⟨["A", "B", "C"],
      [⟨"A", "B"⟩, ⟨"B", "C"⟩, ⟨"A", "C"⟩], 2, none⟩).1 "A",
    ⟨by decide,
      (color_loop_trace_shape ⟨["A", "B", "C"],
        [⟨"A", "B"⟩, ⟨"B", "C"⟩, ⟨"A", "C"⟩], 2, none⟩).2.1
        ⟨"try", "B", some 0, [("A", 0)]⟩ (by decide) rfl⟩,
    (color_loop_trace_shape ⟨["A", "B", "C"],
      [⟨"A", "B"⟩, ⟨"B", "C"⟩, ⟨"A", "C"⟩], 2, none⟩).2.2.1,
    ⟨by decide,
      (color_loop_trace_shape ⟨["A", "B", "C"],
        [⟨"A", "B"⟩, ⟨"B", "C"⟩, ⟨"A", "C"⟩], 2, none⟩).2.2.2
        ⟨"backtrack", "B", some 1, [("A", 0), ("B", 1)]⟩ (by decide) rfl⟩⟩

/-! ### C3: unsatisfiable instances -/

theorem btColors_false_has_conflict (adj : List (String × List String))
    (u : String) (cs : List Int) (colors : List (String × Int))
    (recur : List (String × Int) → Bool × List (String × Int) × List Step)
    (hcs : cs ≠ [])
    (hrec : ∀ d : List (String × Int), (recur d).1 = false →
      ∃ s ∈ (recur d).2.2, s.action = "conflict")
    (hfalse : (btColors adj u cs colors recur).1 = false) :
    ∃ s ∈ (btColors adj u cs colors recur).2.2, s.action = "conflict" := by
  cases cs with
  | nil => exact absurd rfl hcs
  | cons c cs' =>
    by_cases hc : compatible u c colors adj = true
    · by_cases hr : (recur (dictSet colors u c)).1 = true
      · simp only [btColors, if_pos hc, if_pos hr] at hfalse
        exact absurd hfalse (by decide)
      · rw [Bool.not_eq_true] at hr
        obtain ⟨s, hs, hsc⟩ := hrec (dictSet colors u c) hr
        refine ⟨s, ?_, hsc⟩
        simp only [btColors, if_pos hc, hr, Bool.false_eq_true, if_false,
          List.mem_cons, List.mem_append]
        exact Or.inr (Or.inr (Or.inl hs))
    · refine ⟨⟨"conflict", u, some c, colors⟩, ?_, rfl⟩
      simp [btColors, if_neg hc]

theorem btNodes_false_has_conflict (adj : List (String × List String)) (k : Int)
    (hk : 0 < k.toNat) :
    ∀ (l : List String) (colors : List (String × Int)),
      (btNodes adj k l colors).1 = false →
      ∃ s ∈ (btNodes adj k l colors).2.2, s.action = "conflict" := by
  intro l
  induction l with
  | nil => intro colors hfalse; simp [btNodes] at hfalse
  | cons u rest ih =>
    intro colors hfalse
    simp only [btNodes] at hfalse ⊢
    apply btColors_false_has_conflict adj u _ colors _ ?_ (fun d => ih d) hfalse
    simp only [ne_eq, List.map_eq_nil_iff, List.range_eq_nil]
    omega

/-- A total coloring of the input vertices with `k` colors, presented as
the association list the engine's `dictGet` reads. -/
def kColoring (nodes : List String) (k : Nat) (f : Fin nodes.length → Fin k) :
    List (String × Int) :=
  nodes.zip (List.ofFn (fun i => ((f i : Nat) : Int)))

theorem dictGet_zip_map (nodes : List String) (g : String → Int) :
    ∀ w : String, dictGet (nodes.zip (nodes.map g)) w =
      if w ∈ nodes then some (g w) else none := by
  induction nodes with
  | nil => intro w; simp [dictGet]
  | cons n ns ih =>
    intro w
    rw [List.map_cons, List.zip_cons_cons]
    by_cases hn : n = w
    · subst hn
      simp [dictGet]
    · simp only [dictGet, if_neg hn, ih w, List.mem_cons]
      by_cases hw : w ∈ ns
      · simp [hw]
      · have hwn : ¬(w = n) := fun he => hn he.symm
        simp [hw, hwn]

instance properOnDecidable (adj : List (String × List String))
    (colors : List (String × Int)) : Decidable (properOn adj colors) := by
  unfold properOn
  infer_instance

theorem btNodes_true_gives_kColoring (nodes : List String) (edges : List Edge)
    (k : Int) (ord : String) (hk : 0 < k.toNat)
    (htrue : (btNodes (build_adj nodes edges) k
      (order_nodes (build_adj nodes edges) ord) []).1 = true) :
    ∃ f : Fin nodes.length → Fin k.toNat,
      properOn (build_adj nodes edges) (kColoring nodes k.toNat f) := by
  obtain ⟨hA, _, hC⟩ := btNodes_success (build_adj nodes edges) k
    (build_adj_symm _ _) (build_adj_irrefl _ _) (build_adj_keys_nodup _ _)
    (order_nodes (build_adj nodes edges) ord) []
    (order_nodes_nodup _ _ (build_adj_keys_nodup _ _))
    (fun x _ => rfl) (fun p _ v _ => Or.inl rfl) htrue
  set colors := (btNodes (build_adj nodes edges) k
    (order_nodes (build_adj nodes edges) ord) []).2.1 with hcolors
  have hmem : ∀ u, u ∈ nodes → u ∈ order_nodes (build_adj nodes edges) ord :=
    fun u hu => by
      rw [mem_order_nodes]
      exact (mem_build_adj_keys nodes edges u).mpr hu
  set g : String → Int :=
    fun w => Int.ofNat (((dictGet colors w).getD 0).toNat % k.toNat) with hg
  have hgval : ∀ w ∈ nodes, some (g w) = dictGet colors w := by
    intro w hw
    obtain ⟨c, hc1, hc2, hc3⟩ := hA w (hmem w hw)
    show some (Int.ofNat (((dictGet colors w).getD 0).toNat % k.toNat)) =
      dictGet colors w
    rw [hc1]
    simp only [Option.getD_some]
    have h1 : c.toNat % k.toNat = c.toNat := Nat.mod_eq_of_lt (by omega)
    rw [h1]
    congr 1
    exact Int.toNat_of_nonneg hc2
  refine ⟨fun i => ⟨((dictGet colors (nodes.get i)).getD 0).toNat % k.toNat,
    Nat.mod_lt _ hk⟩, ?_⟩
  have hkc : kColoring nodes k.toNat
      (fun i => ⟨((dictGet colors (nodes.get i)).getD 0).toNat % k.toNat,
        Nat.mod_lt _ hk⟩) = nodes.zip (nodes.map g) := by
    unfold kColoring
    congr 1
    rw [show (fun i : Fin nodes.length =>
      ((((dictGet colors (nodes.get i)).getD 0).toNat % k.toNat : Nat) : Int)) =
        (g ∘ nodes.get) from rfl]
    rw [← List.map_ofFn, List.ofFn_get]
  rw [hkc]
  intro p hp v hv
  have hp1 : p.1 ∈ nodes :=
    (mem_build_adj_keys nodes edges p.1).mp (List.mem_map_of_mem Prod.fst hp)
  have hpadj : adjGet (build_adj nodes edges) p.1 = p.2 :=
    adjGet_of_mem _ (build_adj_keys_nodup _ _) p hp
  have hva : v ∈ adjGet (build_adj nodes edges) p.1 := by rw [hpadj]; exact hv
  have hv1 : v ∈ nodes :=
    (mem_build_adj_keys nodes edges v).mp
      ((adjHas_iff _ v).mp (build_adj_closed nodes edges p.1 v hva))
  rcases hC p hp v hv with hnone | hne
  · obtain ⟨c, hc1, _, _⟩ := hA p.1 (hmem p.1 hp1)
    rw [hc1] at hnone
    cases hnone
  · right
    rw [dictGet_zip_map nodes g p.1, if_pos hp1,
      dictGet_zip_map nodes g v, if_pos hv1, hgval p.1 hp1, hgval v hv1]
    exact hne

/-- Counterexample to C3 as stated. On the complete graph `K3` with
`k = 2` (the claim's own example class, `k` in the accepted range), the
engine correctly returns `success = false`, and the first vertex `"A"` of
the search order is exhausted — both candidate colors `0` and `1` are
tried for it, and the whole search fails, so `"A"` ran out of colors —
yet the trace contains no `conflict` step for `"A"`: both of its colors
were compatible when tried, were assigned, and were later abandoned by
`backtrack` steps, which never emits a `conflict`. So the trace does not
contain "at least one conflict step for every exhausted vertex". -/
theorem conflict_per_exhausted_vertex_counterexample :
    (color_graph_backtracking
        (build_adj ["A", "B", "C"] [⟨"A", "B"⟩, ⟨"B", "C"⟩, ⟨"A", "C"⟩])
        2 "degree").1 = false ∧
      order_nodes (build_adj ["A", "B", "C"]
        [⟨"A", "B"⟩, ⟨"B", "C"⟩, ⟨"A", "C"⟩]) "degree" = ["A", "B", "C"] ∧
      (∃ s ∈ (color_graph_backtracking
          (build_adj ["A", "B", "C"] [⟨"A", "B"⟩, ⟨"B", "C"⟩, ⟨"A", "C"⟩])
          2 "degree").2.2, s.action = "try" ∧ s.node = "A" ∧ s.color = some 0) ∧
      (∃ s ∈ (color_graph_backtracking
          (build_adj ["A", "B", "C"] [⟨"A", "B"⟩, ⟨"B", "C"⟩, ⟨"A", "C"⟩])
          2 "degree").2.2, s.action = "try" ∧ s.node = "A" ∧ s.color = some 1) ∧
      (∀ s ∈ (color_graph_backtracking
          (build_adj ["A", "B", "C"] [⟨"A", "B"⟩, ⟨"B", "C"⟩, ⟨"A", "C"⟩])
          2 "degree").2.2, ¬(s.action = "conflict" ∧ s.node = "A")) := by
  decide

/-- C3 as amended: for every graph that requires more than `k` colors
(no total `k`-coloring of the filtered graph is proper), with `k ≥ 1`,
the engine returns `success = false` together with a non-empty trace that
contains at least one `conflict` step — though not necessarily one per
exhausted vertex. -/
theorem unsat_graph_false_with_conflict (nodes : List String) (edges : List Edge)
    (k : Int) (ord : String) (hk : 0 < k.toNat)
    (H : ∀ f : Fin nodes.length → Fin k.toNat,
      ¬ properOn (build_adj nodes edges) (kColoring nodes k.toNat f)) :
    (color_graph_backtracking (build_adj nodes edges) k ord).1 = false ∧
      (color_graph_backtracking (build_adj nodes edges) k ord).2.2 ≠ [] ∧
      ∃ s ∈ (color_graph_backtracking (build_adj nodes edges) k ord).2.2,
        s.action = "conflict" := by
  have hfalse : (btNodes (build_adj nodes edges) k
      (order_nodes (build_adj nodes edges) ord) []).1 = false := by
    by_contra hc
    rw [Bool.not_eq_false] at hc
    obtain ⟨f, hf⟩ := btNodes_true_gives_kColoring nodes edges k ord hk hc
    exact H f hf
  obtain ⟨s, hs, hsc⟩ :=
    btNodes_false_has_conflict (build_adj nodes edges) k hk _ [] hfalse
  exact ⟨hfalse, List.ne_nil_of_mem hs, ⟨s, hs, hsc⟩⟩

/-- Witness for the amended C3 at `K3`, `k = 2`. -/
theorem unsat_graph_false_with_conflict_witness :
    (0 < (2 : Int).toNat) ∧
      (∀ f : Fin (["A", "B", "C"] : List String).length → Fin (2 : Int).toNat,
        ¬ properOn (build_adj ["A", "B", "C"] [⟨"A", "B"⟩, ⟨"B", "C"⟩, ⟨"A", "C"⟩])
          (kColoring ["A", "B", "C"] (2 : Int).toNat f)) ∧
      ((color_graph_backtracking
          (build_adj ["A", "B", "C"] [⟨"A", "B"⟩, ⟨"B", "C"⟩, ⟨"A", "C"⟩])
          2 "degree").1 = false ∧
        (color_graph_backtracking
          (build_adj ["A", "B", "C"] [⟨"A", "B"⟩, ⟨"B", "C"⟩, ⟨"A", "C"⟩])
          2 "degree").2.2 ≠ [] ∧
        ∃ s ∈ (color_graph_backtracking
          (build_adj ["A", "B", "C"] [⟨"A", "B"⟩, ⟨"B", "C"⟩, ⟨"A", "C"⟩])
          2 "degree").2.2, s.action = "conflict") :=
  ⟨by decide, by decide,
    unsat_graph_false_with_conflict ["A", "B", "C"]
      [⟨"A", "B"⟩, ⟨"B", "C"⟩, ⟨"A", "C"⟩] 2 "degree" (by decide) (by decide)⟩
